import Mathlib

/-!
Verification of the restaurant POS engine in `src/src-tauri/src/main.rs`.

The Rust program is shallowly embedded: strings are lists of characters
(`Str`), SQLite tables are Lean lists inside a `Db` record, machine integers
are `ℤ` (all quantities handled by the program fit in `i64`; overflow is not
exercised by any claim), fallible operations return `Except Str`, and the
`f64` arithmetic used for the discount computation is modelled exactly by an
executable IEEE-754 binary64 rounding function on `ℚ`.
-/

namespace MeetEat

/-- Rust `String` / `&str` contents, as a list of Unicode scalar values
(the same notion of "character" as Rust `char`). -/
abbrev Str := List Char

/-! ### Decimal rendering

Models Rust's integer-to-decimal formatting (`to_string`, `format!("{}")`,
`CAST(x AS TEXT)`): digits are produced least-significant-first by repeated
division by 10 and then reversed.  A fuel parameter (the number itself, an
upper bound on the digit count) makes the recursion structural. -/

/-- Least-significant-first decimal digits of `n`; `fuel ≥ n` suffices. -/
def decDigitsAux : ℕ → ℕ → List ℕ
  | 0, _ => []
  | f + 1, n => if n = 0 then [] else n % 10 :: decDigitsAux f (n / 10)

/-- Least-significant-first decimal digits of `n` (empty for 0). -/
def decDigits (n : ℕ) : List ℕ := decDigitsAux n n

/-- The character for the decimal digit `d < 10`. -/
def digitChar (d : ℕ) : Char := Char.ofNat (48 + d)

/-- Decimal rendering of a natural number, as Rust renders it. -/
def decChars (n : ℕ) : Str :=
  if n = 0 then ['0'] else (decDigits n).reverse.map digitChar

/-- Decimal rendering of an integer, as Rust renders an `i64`. -/
def intChars (n : ℤ) : Str :=
  if n < 0 then '-' :: decChars (-n).toNat else decChars n.toNat

/-- Left-pad with `'0'` to width `w` — Rust's `{:06}` padding (line 556). -/
def padZeros (w : ℕ) (s : Str) : Str := List.replicate (w - s.length) '0' ++ s

/-- `format!("MNE-{:06}", seq)` from the bill-creation handler (line 556). -/
def billNoStr (n : ℕ) : Str := 'M' :: 'N' :: 'E' :: '-' :: padZeros 6 (decChars n)

/-- Numeric value of a most-significant-first decimal character string
(inverse of `decChars`, used only in proofs). -/
def charDigit (c : Char) : ℕ := c.toNat - 48

/-- Fold a decimal character string back into its value. -/
def decVal (s : Str) : ℕ := s.foldl (fun a c => 10 * a + charDigit c) 0

/-- Numeric value of a least-significant-first digit list. -/
def ofDigitsLSB : List ℕ → ℕ
  | [] => 0
  | d :: ds => d + 10 * ofDigitsLSB ds

theorem decDigitsAux_val : ∀ f n, n ≤ f → ofDigitsLSB (decDigitsAux f n) = n := by
  intro f
  induction f with
  | zero => intro n h; interval_cases n; rfl
  | succ f ih =>
    intro n h
    by_cases h0 : n = 0
    · simp [decDigitsAux, h0, ofDigitsLSB]
    · have hdiv : n / 10 ≤ f := by
        have : n / 10 < n := Nat.div_lt_self (Nat.pos_of_ne_zero h0) (by norm_num)
        omega
      simp only [decDigitsAux, h0, if_false, ofDigitsLSB, ih _ hdiv]
      omega

theorem decDigitsAux_lt10 : ∀ f n, ∀ d ∈ decDigitsAux f n, d < 10 := by
  intro f
  induction f with
  | zero => intro n d hd; simp [decDigitsAux] at hd
  | succ f ih =>
    intro n d hd
    by_cases h0 : n = 0
    · simp [decDigitsAux, h0] at hd
    · simp only [decDigitsAux, h0, if_false, List.mem_cons] at hd
      rcases hd with h | h
      · omega
      · exact ih _ _ h

theorem charDigit_digitChar {d : ℕ} (h : d < 10) : charDigit (digitChar d) = d := by
  interval_cases d <;> rfl

/-- Folding `decVal`'s step over a digit rendering recovers the value. -/
theorem decVal_digits (l : List ℕ) (hl : ∀ d ∈ l, d < 10) :
    decVal (l.reverse.map digitChar) = ofDigitsLSB l := by
  unfold decVal
  rw [List.map_reverse, List.foldl_reverse, List.foldr_map]
  induction l with
  | nil => rfl
  | cons d ds ih =>
    have hd : d < 10 := hl d (List.mem_cons_self d ds)
    have hds : ∀ x ∈ ds, x < 10 := fun x hx => hl x (List.mem_cons_of_mem d hx)
    simp only [List.foldr_cons, ofDigitsLSB, ih hds, charDigit_digitChar hd]
    omega

theorem decVal_decChars (n : ℕ) : decVal (decChars n) = n := by
  by_cases h0 : n = 0
  · subst h0; rfl
  · unfold decChars
    rw [if_neg h0, decVal_digits (decDigits n) (fun d hd => decDigitsAux_lt10 n n d hd)]
    exact decDigitsAux_val n n le_rfl

theorem decVal_step_zero : ∀ k : ℕ,
    List.foldl (fun a c => 10 * a + charDigit c) 0 (List.replicate k '0') = 0 := by
  intro k
  induction k with
  | zero => rfl
  | succ k ih => simpa [List.replicate_succ, charDigit] using ih

theorem decVal_padZeros (w : ℕ) (s : Str) : decVal (padZeros w s) = decVal s := by
  unfold padZeros decVal
  rw [List.foldl_append, decVal_step_zero]

theorem billNoStr_injective : Function.Injective billNoStr := by
  intro m n h
  unfold billNoStr at h
  have h' : padZeros 6 (decChars m) = padZeros 6 (decChars n) := by
    simpa using h
  have := congrArg decVal h'
  rwa [decVal_padZeros, decVal_padZeros, decVal_decChars, decVal_decChars] at this

/-! ### Text utilities and the receipt formatter (lines 203–245)

Rust `str::len` is the UTF-8 byte length, while `chars().take(n)` counts
characters; both are modelled faithfully (`utf8Len` vs `List.take`). -/

/-- Rust `char::is_whitespace` (the Unicode `White_Space` property). -/
def rustIsWs (c : Char) : Bool :=
  (9 ≤ c.toNat && c.toNat ≤ 13) || c.toNat == 32 || c.toNat == 0x85 ||
  c.toNat == 0xA0 || c.toNat == 0x1680 ||
  (0x2000 ≤ c.toNat && c.toNat ≤ 0x200A) ||
  c.toNat == 0x2028 || c.toNat == 0x2029 || c.toNat == 0x202F ||
  c.toNat == 0x205F || c.toNat == 0x3000

/-- Rust `str::trim`: strip whitespace from both ends. -/
def rustTrim (s : Str) : Str :=
  ((s.dropWhile rustIsWs).reverse.dropWhile rustIsWs).reverse

/-- Rust `str::len`: the UTF-8 byte length. -/
def utf8Len (s : Str) : ℕ := (s.map Char.utf8Size).sum

/-- Lexicographic string comparison (`≤`).  Rust `String`/`str` ordering and
SQLite BINARY collation both compare UTF-8 bytes, which orders exactly like
the scalar-value sequences compared here. -/
def strLeB : Str → Str → Bool
  | [], _ => true
  | _ :: _, [] => false
  | a :: as, b :: bs => decide (a < b) || ((a == b) && strLeB as bs)

/-- `pad_right` (line 205): append spaces up to byte-width `w`. -/
def padRightR (v : Str) (w : ℕ) : Str :=
  if w ≤ utf8Len v then v else v ++ List.replicate (w - utf8Len v) ' '

/-- `pad_left` (line 210): prepend spaces up to byte-width `w`. -/
def padLeftR (v : Str) (w : ℕ) : Str :=
  if w ≤ utf8Len v then v else List.replicate (w - utf8Len v) ' ' ++ v

/-- `fit_text` (line 215): trim, then keep the first `w` characters. -/
def fitText (v : Str) (w : ℕ) : Str := (rustTrim v).take w

/-- `line_two_col` (line 217). -/
def lineTwoCol (left right : Str) (w : ℕ) : Str :=
  if w ≤ utf8Len right then fitText right w
  else
    let lr := w - (utf8Len right + 1)
    let lt := fitText left lr
    let sp := w - (utf8Len lt + utf8Len right)
    lt ++ List.replicate sp ' ' ++ right

/-- `sep` (line 225). -/
def sepLine (w : ℕ) : Str := List.replicate w '-'

/-- `cents_to_rs` (line 203): `format!("{:.2}", cents as f64 / 100.0)`.
For every `i32` input the `f64` quotient is within `2⁻³²` of the exact
two-decimal value `cents/100`, so the printed two-decimal rounding is exactly
the decimal expansion of `cents/100`; the model renders that expansion
directly. -/
def centsToRs (c : ℤ) : Str :=
  (if c < 0 then ['-'] else []) ++
    decChars (c.natAbs / 100) ++ '.' :: padZeros 2 (decChars (c.natAbs % 100))

/-- One line item of the `/print` payload (struct `ReceiptItem`). -/
structure ReceiptItem where
  name : Str
  qty : ℤ
  unit_price_cents : ℤ
  line_total_cents : ℤ

/-- The `/print` payload (struct `ReceiptPayload`). -/
structure ReceiptPayload where
  bill_no : Str
  printed_at : Str
  subtotal_cents : ℤ
  discount_rate_bps : ℤ
  discount_cents : ℤ
  total_cents : ℤ
  items : List ReceiptItem

/-- The per-item line of `format_receipt` (line 235–238). -/
def itemLine (it : ReceiptItem) : Str :=
  padRightR (fitText it.name 20) 20 ++ ' ' ::
    (padLeftR (intChars it.qty) 4 ++ ' ' ::
      (padLeftR (centsToRs it.unit_price_cents) 9 ++ ' ' ::
        padLeftR (centsToRs it.line_total_cents) 12))

/-- CRLF line terminator; `format_receipt` joins lines with `"\r\n"`. -/
def crlf : Str := [Char.ofNat 13, Char.ofNat 10]

/-- `l.join("\r\n")` from line 244. -/
def joinCrlf (ls : List Str) : Str := (ls.intersperse crlf).flatten

/-- `format_receipt` (lines 227–245). -/
def formatReceipt (p : ReceiptPayload) : Str :=
  let w := 48
  joinCrlf
    ([sepLine w,
      lineTwoCol ('B' :: 'i' :: 'l' :: 'l' :: ':' :: ' ' :: p.bill_no) p.printed_at w,
      sepLine w,
      padRightR ['I', 't', 'e', 'm'] 20 ++ ' ' ::
        (padLeftR ['Q', 't', 'y'] 4 ++ ' ' ::
          (padLeftR ['R', 'a', 't', 'e'] 9 ++ ' ' ::
            padLeftR ['A', 'm', 'o', 'u', 'n', 't'] 12)),
      sepLine w] ++
      p.items.map itemLine ++
      [sepLine w,
        lineTwoCol "Subtotal".data ("Rs ".data ++ centsToRs p.subtotal_cents) w,
        lineTwoCol ("Discount (".data ++ centsToRs p.discount_rate_bps ++ "%)".data)
          ("-Rs ".data ++ centsToRs p.discount_cents) w,
        lineTwoCol "TOTAL".data ("Rs ".data ++ centsToRs p.total_cents) w,
        sepLine w])

/-! ### Exact model of the `f64` discount computation (line 548)

`let dc = ((subtotal as f64 * dr as f64) / 10_000.0).round() as i64;`

Every `f64` value produced here is normal and far from overflow, so IEEE-754
binary64 round-to-nearest-even is exactly: scale the real value into
`[2^52, 2^53)`, round to an integer with ties-to-even, and scale back.
`toF64` implements that on `ℚ`; `f64Discount` chains the conversions,
multiplication, division and final `round()` (round half away from zero)
exactly as the Rust expression does. -/

/-- Floor of log₂ via halving; the `fuel` argument of `natLog2` makes the
recursion structural (`fuel = n` always suffices). -/
def natLog2Aux : ℕ → ℕ → ℕ
  | 0, _ => 0
  | f + 1, n => if n ≤ 1 then 0 else natLog2Aux f (n / 2) + 1

/-- `⌊log₂ n⌋` for `n ≥ 1` (0 for `n ≤ 1`). -/
def natLog2 (n : ℕ) : ℕ := natLog2Aux n n

/-- `2 ^ e` on `ℚ` for an integer exponent, kept executable. -/
def pow2 (e : ℤ) : ℚ :=
  if 0 ≤ e then ((2 ^ e.toNat : ℕ) : ℚ) else 1 / ((2 ^ (-e).toNat : ℕ) : ℚ)

/-- The binary exponent `e` with `2^e ≤ |q| < 2^(e+1)` (for `q ≠ 0`). -/
def ratExp2 (q : ℚ) : ℤ :=
  let c : ℤ := (natLog2 q.num.natAbs : ℤ) - (natLog2 q.den : ℤ)
  if pow2 c ≤ |q| then c else c - 1

/-- Round to the nearest integer, ties to even (IEEE-754 default rounding). -/
def rne (x : ℚ) : ℤ :=
  let f : ℤ := ⌊x⌋
  let r : ℚ := x - f
  if r < 1 / 2 then f
  else if 1 / 2 < r then f + 1
  else if f % 2 = 0 then f else f + 1

/-- Round a real (rational) value to the nearest `f64`, assuming it is in the
normal, non-overflowing range (always true in this program). -/
def toF64 (q : ℚ) : ℚ :=
  if q = 0 then 0
  else
    let u := pow2 (ratExp2 q - 52)
    (if q < 0 then -1 else 1) * (rne (|q| / u) : ℚ) * u

/-- Rust `f64::round`: round half away from zero. -/
def roundHalfAway (x : ℚ) : ℤ :=
  if 0 ≤ x then ⌊x + 1 / 2⌋ else -⌊-x + 1 / 2⌋

/-- The discount computation of line 548, with each `f64` operation rounding
through `toF64` exactly as the hardware does. -/
def f64Discount (subtotal dr : ℤ) : ℤ :=
  roundHalfAway (toF64 (toF64 ((toF64 subtotal) * (toF64 dr)) / 10000))

theorem natLog2Aux_bounds :
    ∀ f n, 0 < n → n < 2 ^ (f + 1) →
      2 ^ natLog2Aux f n ≤ n ∧ n < 2 ^ (natLog2Aux f n + 1) := by
  intro f
  induction f with
  | zero =>
    intro n h1 h2
    have : n = 1 := by omega
    subst this
    simp [natLog2Aux]
  | succ f ih =>
    intro n h1 h2
    by_cases hn : n ≤ 1
    · have : n = 1 := by omega
      subst this
      simp [natLog2Aux]
    · have hrec := ih (n / 2) (by omega) (by omega)
      simp only [natLog2Aux, if_neg hn]
      constructor
      · calc 2 ^ (natLog2Aux f (n / 2) + 1) = 2 ^ natLog2Aux f (n / 2) * 2 := by ring
        _ ≤ n / 2 * 2 := by omega
        _ ≤ n := by omega
      · calc n < (n / 2 + 1) * 2 := by omega
        _ ≤ 2 ^ (natLog2Aux f (n / 2) + 1) * 2 := by omega
        _ = 2 ^ (natLog2Aux f (n / 2) + 1 + 1) := by ring

theorem natLog2_bounds (n : ℕ) (h : 0 < n) :
    2 ^ natLog2 n ≤ n ∧ n < 2 ^ (natLog2 n + 1) :=
  natLog2Aux_bounds n n h (lt_of_lt_of_le (Nat.lt_two_pow n) (by
    exact Nat.pow_le_pow_right (by norm_num) (by omega)))

theorem pow2_eq_zpow (e : ℤ) : pow2 e = (2 : ℚ) ^ e := by
  unfold pow2
  by_cases h : 0 ≤ e
  · rw [if_pos h]
    push_cast
    rw [← zpow_natCast, Int.toNat_of_nonneg h]
  · rw [if_neg h]
    push_cast
    rw [← zpow_natCast, Int.toNat_of_nonneg (by omega : (0:ℤ) ≤ -e)]
    rw [one_div, ← zpow_neg, neg_neg]

theorem pow2_pos (e : ℤ) : 0 < pow2 e := by
  rw [pow2_eq_zpow]; positivity

theorem zpow_sub_div (m n : ℕ) : (2 : ℚ) ^ ((m : ℤ) - n) = (2 : ℚ) ^ m / (2 : ℚ) ^ n := by
  rw [zpow_sub₀ (by norm_num : (2:ℚ) ≠ 0), zpow_natCast, zpow_natCast]

theorem ratExp2_spec (q : ℚ) (hq : q ≠ 0) :
    (2 : ℚ) ^ ratExp2 q ≤ |q| ∧ |q| < (2 : ℚ) ^ (ratExp2 q + 1) := by
  have hnum : q.num ≠ 0 := Rat.num_ne_zero.mpr hq
  set a : ℕ := q.num.natAbs with ha_def
  set b : ℕ := q.den with hb_def
  have ha : 0 < a := Int.natAbs_pos.mpr hnum
  have hb : 0 < b := q.pos
  obtain ⟨ha1, ha2⟩ := natLog2_bounds a ha
  obtain ⟨hb1, hb2⟩ := natLog2_bounds b hb
  have hbq : (0 : ℚ) < (b : ℚ) := by exact_mod_cast hb
  have habs : |q| = (a : ℚ) / (b : ℚ) := by
    rw [← Rat.num_div_den q, abs_div, ha_def, Int.cast_natAbs, Int.cast_abs, abs_of_pos hbq]
  have c1 : (a : ℚ) < 2 ^ (natLog2 a + 1) := by exact_mod_cast ha2
  have c2 : (2 : ℚ) ^ natLog2 b ≤ (b : ℚ) := by exact_mod_cast hb1
  have c3 : (2 : ℚ) ^ natLog2 a ≤ (a : ℚ) := by exact_mod_cast ha1
  have c4 : (b : ℚ) < 2 ^ (natLog2 b + 1) := by exact_mod_cast hb2
  have p1 : |q| < (2 : ℚ) ^ ((natLog2 a : ℤ) - natLog2 b + 1) := by
    have he : ((natLog2 a : ℤ) - natLog2 b + 1) = ((natLog2 a + 1 : ℕ) : ℤ) - (natLog2 b : ℕ) := by
      push_cast; ring
    rw [he, zpow_sub_div, habs, div_lt_div_iff₀ hbq (by positivity)]
    nlinarith [pow_pos (by norm_num : (0:ℚ) < 2) (natLog2 a + 1),
      pow_pos (by norm_num : (0:ℚ) < 2) (natLog2 b)]
  have p2 : (2 : ℚ) ^ ((natLog2 a : ℤ) - natLog2 b - 1) ≤ |q| := by
    have he : ((natLog2 a : ℤ) - natLog2 b - 1) = ((natLog2 a : ℕ) : ℤ) - (natLog2 b + 1 : ℕ) := by
      push_cast; ring
    rw [he, zpow_sub_div, habs, div_le_div_iff₀ (by positivity) hbq]
    nlinarith [pow_pos (by norm_num : (0:ℚ) < 2) (natLog2 a),
      pow_pos (by norm_num : (0:ℚ) < 2) (natLog2 b + 1)]
  by_cases hle : pow2 ((natLog2 a : ℤ) - natLog2 b) ≤ |q|
  · simp only [ratExp2, ← ha_def, ← hb_def, hle, if_true]
    refine ⟨by rwa [pow2_eq_zpow] at hle, p1⟩
  · simp only [ratExp2, ← ha_def, ← hb_def, hle, if_false]
    have hlt : |q| < (2 : ℚ) ^ ((natLog2 a : ℤ) - natLog2 b) := by
      rw [pow2_eq_zpow] at hle
      exact lt_of_not_le hle
    refine ⟨p2, by simpa using hlt⟩

theorem rne_intCast (z : ℤ) : rne (z : ℚ) = z := by
  simp [rne]

theorem abs_rne_sub_le (x : ℚ) : |(rne x : ℚ) - x| ≤ 1 / 2 := by
  have h1 : (⌊x⌋ : ℚ) ≤ x := Int.floor_le x
  have h2 : x < ⌊x⌋ + 1 := Int.lt_floor_add_one x
  simp only [rne]
  split_ifs with hr1 hr2 hf <;> push_cast <;> rw [abs_le] <;> constructor <;> linarith

theorem toF64_zero : toF64 0 = 0 := by
  simp [toF64]

/-- Dyadic rationals with at most 53 significant bits are exactly representable:
`toF64` is the identity on them. -/
theorem toF64_dyadic (m j : ℤ) (hm : m ≠ 0) (hsize : |m| < 2 ^ 53) :
    toF64 ((m : ℚ) * 2 ^ j) = (m : ℚ) * 2 ^ j := by
  have h2j : (0 : ℚ) < 2 ^ j := by positivity
  have hmq : ((m : ℚ)) ≠ 0 := by exact_mod_cast hm
  have hq : (m : ℚ) * 2 ^ j ≠ 0 := mul_ne_zero hmq (by positivity)
  set q : ℚ := (m : ℚ) * 2 ^ j with hq_def
  obtain ⟨hs1, hs2⟩ := ratExp2_spec q hq
  set e : ℤ := ratExp2 q with he_def
  have habs : |q| = ((|m| : ℤ) : ℚ) * 2 ^ j := by
    rw [hq_def, abs_mul, abs_of_pos h2j, Int.cast_abs]
  have hub : |q| < 2 ^ (j + 53) := by
    have hmlt : ((|m| : ℤ) : ℚ) < 2 ^ (53 : ℕ) := by exact_mod_cast hsize
    have : |q| < 2 ^ (53 : ℕ) * 2 ^ j := by
      rw [habs]
      exact mul_lt_mul_of_pos_right hmlt h2j
    calc |q| < 2 ^ (53 : ℕ) * 2 ^ j := this
    _ = 2 ^ (j + 53) := by
        rw [← zpow_natCast (2 : ℚ) 53, ← zpow_add₀ (by norm_num : (2:ℚ) ≠ 0)]
        congr 1
        push_cast
        ring
  have he_le : e ≤ j + 52 := by
    by_contra hcon
    push_neg at hcon
    have : (2 : ℚ) ^ (j + 53) ≤ 2 ^ e := zpow_le_zpow_right₀ (by norm_num) (by omega)
    linarith
  set k : ℤ := j - (e - 52) with hk_def
  have hk0 : 0 ≤ k := by omega
  have hxval : |q| / pow2 (e - 52) = ((m.natAbs * 2 ^ k.toNat : ℕ) : ℚ) := by
    rw [pow2_eq_zpow, habs, mul_div_assoc, ← zpow_sub₀ (by norm_num : (2:ℚ) ≠ 0)]
    push_cast [Int.cast_natAbs]
    rw [← zpow_natCast (2 : ℚ) k.toNat, Int.toNat_of_nonneg hk0]
  have hrne : rne (|q| / pow2 (e - 52)) = ((m.natAbs * 2 ^ k.toNat : ℕ) : ℤ) := by
    rw [hxval]
    exact_mod_cast rne_intCast ((m.natAbs * 2 ^ k.toNat : ℕ) : ℤ)
  have hsign : (if q < 0 then (-1 : ℚ) else 1) * ((|m| : ℤ) : ℚ) = (m : ℚ) := by
    rcases lt_trichotomy m 0 with hneg | hzero | hpos
    · have hqneg : q < 0 := by
        rw [hq_def]
        apply mul_neg_of_neg_of_pos _ h2j
        exact_mod_cast hneg
      rw [if_pos hqneg, abs_of_neg hneg]
      push_cast
      ring
    · exact absurd hzero hm
    · have hqpos : 0 < q := by
        rw [hq_def]
        apply mul_pos _ h2j
        exact_mod_cast hpos
      rw [if_neg (by linarith), abs_of_pos hpos]
      ring
  simp only [toF64, if_neg hq, ← he_def, hrne]
  push_cast [Int.cast_natAbs]
  rw [pow2_eq_zpow, ← zpow_natCast (2 : ℚ) k.toNat, Int.toNat_of_nonneg hk0]
  have : (if q < 0 then (-1 : ℚ) else 1) * (|(m : ℚ)| * 2 ^ k) * 2 ^ (e - 52)
      = ((if q < 0 then (-1 : ℚ) else 1) * |(m : ℚ)|) * (2 ^ k * 2 ^ (e - 52)) := by ring
  rw [this, ← zpow_add₀ (by norm_num : (2:ℚ) ≠ 0)]
  have hexp : k + (e - 52) = j := by omega
  rw [hexp]
  have habs' : |(m : ℚ)| = ((|m| : ℤ) : ℚ) := by rw [Int.cast_abs]
  rw [habs', hsign]

/-- `toF64` is the identity on integers of magnitude below `2^53`. -/
theorem toF64_intCast (m : ℤ) (hsize : |m| < 2 ^ 53) : toF64 (m : ℚ) = (m : ℚ) := by
  by_cases hm : m = 0
  · subst hm; simpa using toF64_zero
  · simpa using toF64_dyadic m 0 hm hsize

/-- Rounding error of one `f64` operation: at most half an ulp. -/
theorem toF64_err (q : ℚ) (hq : q ≠ 0) :
    |toF64 q - q| ≤ 2 ^ (ratExp2 q - 53) := by
  set e : ℤ := ratExp2 q with he_def
  set u : ℚ := pow2 (e - 52) with hu_def
  have hu : 0 < u := pow2_pos _
  have hxq : q = (if q < 0 then (-1 : ℚ) else 1) * (|q| / u) * u := by
    split_ifs with h
    · rw [abs_of_neg h]; field_simp
    · rw [abs_of_nonneg (by linarith [not_lt.mp h])]; field_simp
  have hdiff : toF64 q - q
      = (if q < 0 then (-1 : ℚ) else 1) * ((rne (|q| / u) : ℚ) - |q| / u) * u := by
    conv_lhs => rw [toF64, if_neg hq]
    rw [← he_def, ← hu_def]
    conv_lhs => rw [show (if q < 0 then (-1:ℚ) else 1) * (rne (|q| / u) : ℚ) * u - q
      = (if q < 0 then (-1:ℚ) else 1) * (rne (|q| / u) : ℚ) * u
        - (if q < 0 then (-1 : ℚ) else 1) * (|q| / u) * u from by rw [← hxq]]
    ring
  rw [hdiff]
  rw [abs_mul, abs_mul]
  have hsign : |if q < 0 then (-1 : ℚ) else 1| = 1 := by
    split_ifs <;> norm_num
  rw [hsign, one_mul, abs_of_pos hu]
  have hr := abs_rne_sub_le (|q| / u)
  have hcalc : u / 2 = 2 ^ (e - 53) := by
    rw [hu_def, pow2_eq_zpow]
    rw [show e - 52 = (e - 53) + 1 by ring, zpow_add₀ (by norm_num : (2:ℚ) ≠ 0)]
    ring
  calc |(rne (|q| / u) : ℚ) - |q| / u| * u ≤ (1 / 2) * u := by
        exact mul_le_mul_of_nonneg_right hr (le_of_lt hu)
  _ = u / 2 := by ring
  _ = 2 ^ (e - 53) := hcalc

theorem floor_intCast_add_half (z : ℤ) : ⌊(z : ℚ) + 1 / 2⌋ = z := by
  rw [Int.floor_eq_iff]
  refine ⟨by linarith, by linarith⟩

theorem roundHalfAway_intCast (z : ℤ) : roundHalfAway (z : ℚ) = z := by
  unfold roundHalfAway
  split_ifs with h
  · exact floor_intCast_add_half z
  · rw [show -(z : ℚ) + 1 / 2 = ((-z : ℤ) : ℚ) + 1 / 2 by push_cast; ring,
      floor_intCast_add_half]
    ring

theorem roundHalfAway_interval (r : ℤ) (y : ℚ)
    (h1 : (r : ℚ) - 1 / 2 < y) (h2 : y < (r : ℚ) + 1 / 2) : roundHalfAway y = r := by
  unfold roundHalfAway
  split_ifs with h
  · rw [Int.floor_eq_iff]
    refine ⟨by linarith, by linarith⟩
  · have : ⌊-y + 1 / 2⌋ = -r := by
      rw [Int.floor_eq_iff]
      refine ⟨by push_cast; linarith, by push_cast; linarith⟩
    rw [this]
    ring

/-- If `2q` is never an odd integer, `q` lies strictly inside the rounding
interval of its own half-away rounding. -/
theorem roundHalfAway_bounds (q : ℚ) (hnh : ∀ z : ℤ, 2 * q ≠ ((2 * z + 1 : ℤ) : ℚ)) :
    ((roundHalfAway q : ℚ) - 1 / 2 < q) ∧ (q < (roundHalfAway q : ℚ) + 1 / 2) := by
  unfold roundHalfAway
  split_ifs with h
  · set f : ℤ := ⌊q + 1 / 2⌋ with hf_def
    have hle : (f : ℚ) ≤ q + 1 / 2 := Int.floor_le _
    have hlt : q + 1 / 2 < f + 1 := Int.lt_floor_add_one _
    have hne : q ≠ (f : ℚ) - 1 / 2 := by
      intro heq
      exact hnh (f - 1) (by rw [heq]; push_cast; ring)
    constructor
    · rcases lt_or_eq_of_le (by linarith : (f : ℚ) - 1 / 2 ≤ q) with h' | h'
      · exact h'
      · exact absurd h'.symm hne
    · linarith
  · set f : ℤ := ⌊-q + 1 / 2⌋ with hf_def
    have hle : (f : ℚ) ≤ -q + 1 / 2 := Int.floor_le _
    have hlt : -q + 1 / 2 < f + 1 := Int.lt_floor_add_one _
    have hne : q ≠ -(f : ℚ) + 1 / 2 := by
      intro heq
      exact hnh (-f) (by rw [heq]; push_cast; ring)
    constructor
    · push_cast
      linarith
    · rcases lt_or_eq_of_le (by linarith : q ≤ -(f : ℚ) + 1 / 2) with h' | h'
      · push_cast
        linarith
      · exact absurd h' hne

/-- The `f64` discount computation agrees with exact rational
round-half-away-from-zero whenever `|subtotal · bps| < 2³⁹ · 10⁴`
(≈ 5.5 · 10¹⁵) — in that range every intermediate `f64` rounding error is
too small to cross a rounding boundary. -/
theorem f64Discount_exact (s d : ℤ) (hbound : |s * d| < 2 ^ 39 * 10 ^ 4) :
    f64Discount s d = roundHalfAway (((s * d : ℤ) : ℚ) / 10000) := by
  by_cases hN : s * d = 0
  · rcases mul_eq_zero.mp hN with h0 | h0 <;>
      simp [f64Discount, h0, toF64_zero, hN, roundHalfAway, floor_intCast_add_half 0]
  · have hs : s ≠ 0 := fun h => hN (by simp [h])
    have hd : d ≠ 0 := fun h => hN (by simp [h])
    have hN53 : |s * d| < 2 ^ 53 := lt_trans hbound (by norm_num)
    have hs53 : |s| < 2 ^ 53 := by
      have h1 : (1 : ℤ) ≤ |d| := Int.one_le_abs hd
      have : |s| ≤ |s * d| := by
        rw [abs_mul]
        nlinarith [abs_nonneg s]
      omega
    have hd53 : |d| < 2 ^ 53 := by
      have h1 : (1 : ℤ) ≤ |s| := Int.one_le_abs hs
      have : |d| ≤ |s * d| := by
        rw [abs_mul]
        nlinarith [abs_nonneg d]
      omega
    have hprod : (toF64 (s : ℚ)) * (toF64 (d : ℚ)) = ((s * d : ℤ) : ℚ) := by
      rw [toF64_intCast s hs53, toF64_intCast d hd53]
      push_cast
      ring
    have hprod64 : toF64 (((s * d : ℤ) : ℚ)) = ((s * d : ℤ) : ℚ) :=
      toF64_intCast _ hN53
    set N : ℤ := s * d with hN_def
    set q : ℚ := ((N : ℤ) : ℚ) / 10000 with hq_def
    have hq0 : q ≠ 0 := by
      rw [hq_def]
      apply div_ne_zero _ (by norm_num)
      exact_mod_cast hN
    have hred : f64Discount s d = roundHalfAway (toF64 q) := by
      rw [f64Discount, hprod, hprod64]
    rw [hred]
    by_cases hdy : (5000 : ℤ) ∣ N
    · obtain ⟨M, hM⟩ := hdy
      have hM0 : M ≠ 0 := by
        intro h; rw [h, mul_zero] at hM; exact hN (hN_def ▸ hM)
      have hM53 : |M| < 2 ^ 53 := by
        have : |N| = 5000 * |M| := by rw [hM, abs_mul]; norm_num
        omega
      have hqM : q = (M : ℚ) * 2 ^ (-1 : ℤ) := by
        rw [hq_def, hM]
        push_cast
        rw [zpow_neg, zpow_one]
        ring
      rw [hqM, toF64_dyadic M (-1) hM0 hM53]
    · have hnh : ∀ z : ℤ, 2 * q ≠ ((2 * z + 1 : ℤ) : ℚ) := by
        intro z heq
        apply hdy
        have : (N : ℚ) = 5000 * (2 * z + 1 : ℤ) := by
          rw [hq_def] at heq
          push_cast at heq ⊢
          linarith
        have : N = 5000 * (2 * z + 1) := by exact_mod_cast this
        exact ⟨2 * z + 1, this⟩
      obtain ⟨hb1, hb2⟩ := roundHalfAway_bounds q hnh
      set r : ℤ := roundHalfAway q with hr_def
      -- margins: q is at distance ≥ 1/20000 from both boundary points
      have hKval1 : ((2 * N - (2 * r - 1) * 10 ^ 4 : ℤ) : ℚ) = 20000 * (q - ((r : ℚ) - 1 / 2)) := by
        rw [hq_def]
        push_cast
        ring
      have hK1 : (1 : ℤ) ≤ 2 * N - (2 * r - 1) * 10 ^ 4 := by
        by_contra hc
        push_neg at hc
        have hle : ((2 * N - (2 * r - 1) * 10 ^ 4 : ℤ) : ℚ) ≤ 0 := by
          exact_mod_cast (by omega : (2 * N - (2 * r - 1) * 10 ^ 4 : ℤ) ≤ 0)
        rw [hKval1] at hle
        linarith
      have hmarg1 : (r : ℚ) - 1 / 2 + 1 / 20000 ≤ q := by
        have h1 : (1 : ℚ) ≤ ((2 * N - (2 * r - 1) * 10 ^ 4 : ℤ) : ℚ) := by exact_mod_cast hK1
        rw [hKval1] at h1
        linarith
      have hKval2 : (((2 * r + 1) * 10 ^ 4 - 2 * N : ℤ) : ℚ) = 20000 * (((r : ℚ) + 1 / 2) - q) := by
        rw [hq_def]
        push_cast
        ring
      have hK2 : (1 : ℤ) ≤ (2 * r + 1) * 10 ^ 4 - 2 * N := by
        by_contra hc
        push_neg at hc
        have hle : (((2 * r + 1) * 10 ^ 4 - 2 * N : ℤ) : ℚ) ≤ 0 := by
          exact_mod_cast (by omega : ((2 * r + 1) * 10 ^ 4 - 2 * N : ℤ) ≤ 0)
        rw [hKval2] at hle
        linarith
      have hmarg2 : q ≤ (r : ℚ) + 1 / 2 - 1 / 20000 := by
        have h1 : (1 : ℚ) ≤ (((2 * r + 1) * 10 ^ 4 - 2 * N : ℤ) : ℚ) := by exact_mod_cast hK2
        rw [hKval2] at h1
        linarith
      -- the f64 rounding error is below the margin
      have hqlt : |q| < (2 : ℚ) ^ (39 : ℤ) := by
        have habsN : |((N : ℤ) : ℚ)| < ((2 ^ 39 * 10 ^ 4 : ℤ) : ℚ) := by
          rw [← Int.cast_abs]
          exact_mod_cast hbound
        rw [hq_def, abs_div, abs_of_pos (by norm_num : (0:ℚ) < 10000)]
        rw [div_lt_iff₀ (by norm_num : (0:ℚ) < 10000)]
        calc |((N : ℤ) : ℚ)| < ((2 ^ 39 * 10 ^ 4 : ℤ) : ℚ) := habsN
        _ = (2 : ℚ) ^ (39 : ℤ) * 10000 := by push_cast; norm_num
      have he38 : ratExp2 q ≤ 38 := by
        obtain ⟨hsp1, _⟩ := ratExp2_spec q hq0
        by_contra hc
        push_neg at hc
        have : (2 : ℚ) ^ (39 : ℤ) ≤ 2 ^ ratExp2 q := zpow_le_zpow_right₀ (by norm_num) (by omega)
        linarith
      have herr : |toF64 q - q| ≤ 1 / 32768 := by
        have h1 := toF64_err q hq0
        have h2 : (2 : ℚ) ^ (ratExp2 q - 53) ≤ 2 ^ (-15 : ℤ) :=
          zpow_le_zpow_right₀ (by norm_num) (by omega)
        have h3 : (2 : ℚ) ^ (-15 : ℤ) = 1 / 32768 := by
          rw [zpow_neg]
          norm_num
        exact h1.trans (h2.trans h3.le)
      have hx1 : (r : ℚ) - 1 / 2 < toF64 q := by
        have := abs_le.mp herr
        nlinarith [this.1, this.2]
      have hx2 : toF64 q < (r : ℚ) + 1 / 2 := by
        have := abs_le.mp herr
        nlinarith [this.1, this.2]
      exact roundHalfAway_interval r (toF64 q) hx1 hx2

/-! ### Store model

The SQLite tables of the schema (lines 33–89), as Lean lists.  The category
table is folded into each product's joined `category` name (the claims never
observe categories separately); `AUTOINCREMENT` ids are modelled as
`length + 1`, which matches SQLite on a table that never shrinks.  All store
operations run under the single connection mutex (§5 of the spec), so they
are sequential functions of the store state. -/

/-- A row of `products`, left-joined with its category name. -/
structure Product where
  id : ℕ
  item_no : Option ℤ
  name : Str
  category : Option Str
  price_cents : ℤ
  is_available : ℤ
deriving DecidableEq

/-- A row of `bills`. -/
structure Bill where
  id : ℕ
  bill_no : Str
  subtotal_cents : ℤ
  discount_rate_bps : ℤ
  discount_cents : ℤ
  total_cents : ℤ
deriving DecidableEq

/-- A row of `bill_items`. -/
structure BillItem where
  bill_id : ℕ
  product_id : ℤ
  product_name : Str
  unit_price_cents : ℤ
  qty : ℤ
  line_total_cents : ℤ
deriving DecidableEq

/-- The store: the three tables the claims observe plus the `bill_seq`
setting (seeded with `0` by the schema, line 87). -/
structure Db where
  products : List Product
  bills : List Bill
  bill_items : List BillItem
  bill_seq : ℕ
deriving DecidableEq

/-- A store as `init_db` leaves it on a fresh file, with a given product
catalog (products are irrelevant to and unchanged by `/bills`). -/
def initDb (ps : List Product) : Db := ⟨ps, [], [], 0⟩

/-! ### Inventory: `POST /products` (lines 452–483) -/

def errItemNoInUse : Str := "Item No already in use".data

def errItemNoOverflow : Str := "Item No overflow".data

def errAllocExhausted : Str := "Failed to allocate Item No".data

/-- The non-null `item_no` column values (the unique partial index
`idx_products_item_no` is over these). -/
def usedNos (db : Db) : List ℤ := db.products.filterMap Product.item_no

/-- `SELECT COALESCE(MAX(item_no), 0) FROM products` (line 470). -/
def maxNo (db : Db) : ℤ :=
  match usedNos db with
  | [] => 0
  | x :: xs => xs.foldl max x

/-- Insert one product row (`INSERT INTO products(...) VALUES(..,1)`). -/
def addProduct (db : Db) (no : Option ℤ) (name : Str) (cat : Option Str) (price : ℤ) : Db :=
  { db with products := db.products ++ [⟨db.products.length + 1, no, name, cat, price, 1⟩] }

/-- The `for _ in 0..3` auto-allocation loop (lines 469–481): read the
current maximum, try `max+1`, fail fast on range overflow, retry on a
uniqueness collision.  Under the store mutex the state cannot change
between iterations, so the re-read returns the same maximum. -/
def allocLoop : ℕ → Db → Str → Option Str → ℤ → Except Str Db
  | 0, _, _, _, _ => .error errAllocExhausted
  | f + 1, db, name, cat, price =>
    let nx := maxNo db + 1
    if nx < 1 ∨ 9999 < nx then .error errItemNoOverflow
    else if nx ∈ usedNos db then allocLoop f db name cat price
    else .ok (addProduct db (some nx) name cat price)

/-- `POST /products` (lines 452–483): an explicit in-range `item_no` is
inserted directly (uniqueness collision ↦ `ItemNumberInUse`); anything else
falls through to the auto-allocation loop. -/
def createProduct (db : Db) (rawName : Str) (cat : Option Str) (price : ℤ)
    (rawNo : Option ℤ) : Except Str Db :=
  let name := rustTrim rawName
  match rawNo with
  | some n =>
    if 1 ≤ n ∧ n ≤ 9999 then
      if n ∈ usedNos db then .error errItemNoInUse
      else .ok (addProduct db (some n) name cat price)
    else allocLoop 3 db name cat price
  | none => allocLoop 3 db name cat price

/-- The control flow of the `0..3` loop with the insert verdict abstracted:
`collide i` says attempt `i` hit the `item_no` uniqueness violation (which in
the running system can only be caused by interference the sequential
embedding cannot produce). -/
def retryAlloc (collide : ℕ → Bool) : ℕ → ℕ → Except Str ℕ
  | 0, _ => .error errAllocExhausted
  | f + 1, i => if collide i then retryAlloc collide f (i + 1) else .ok i

/-! ### Inventory: product listing and search (lines 434–450) -/

/-- SQLite default `LIKE` folds ASCII `A`–`Z` to lower case. -/
def lowerAscii (c : Char) : Char :=
  if 'A' ≤ c ∧ c ≤ 'Z' then Char.ofNat (c.toNat + 32) else c

/-- SQLite `LIKE` pattern matching: `%` matches any sequence, `_` any single
character, other characters match ASCII-case-insensitively.  Structurally
recursive on fuel; every step shrinks `pattern + text`, so the fuel chosen by
`likeB` always suffices. -/
def likeAux : ℕ → Str → Str → Bool
  | 0, _, _ => false
  | _ + 1, [], t => t.isEmpty
  | f + 1, p :: ps, t =>
    if p = '%' then
      likeAux f ps t ||
        (match t with
          | [] => false
          | _ :: ts => likeAux f (p :: ps) ts)
    else
      match t with
      | [] => false
      | c :: ts => ((p == '_') || (lowerAscii p == lowerAscii c)) && likeAux f ps ts

/-- `text LIKE pattern` with SQLite's default semantics. -/
def likeB (pat s : Str) : Bool := likeAux (pat.length + s.length + 1) pat s

/-- The search `WHERE` clause (line 438):
`is_available = 1 AND (name LIKE '%q%' OR CAST(item_no AS TEXT) LIKE '%q%')`
(`CAST(NULL AS TEXT)` is `NULL`, and `NULL LIKE p` is not true). -/
def searchPred (q : Str) (p : Product) : Bool :=
  ((p.is_available == 1) &&
    (likeB ('%' :: (q ++ ['%'])) p.name ||
      (match p.item_no with
        | some n => likeB ('%' :: (q ++ ['%'])) (intChars n)
        | none => false)))

/-- `ORDER BY (item_no IS NULL), item_no, name` as a total preorder.
Rows with equal keys may come out in any order, exactly as in SQLite. -/
def prodKeyLe (a b : Product) : Bool :=
  let ra : ℕ := if a.item_no.isSome then 0 else 1
  let rb : ℕ := if b.item_no.isSome then 0 else 1
  (decide (ra < rb)) ||
    ((ra == rb) &&
      ((decide (a.item_no.getD 0 < b.item_no.getD 0)) ||
        ((a.item_no.getD 0 == b.item_no.getD 0) && strLeB a.name b.name)))

/-- `GET /products/search` (lines 434–442): filter by `searchPred`, order by
the product key, `LIMIT 20`. -/
def searchProducts (db : Db) (q : Str) : List Product :=
  ((db.products.filter (searchPred q)).insertionSort
    (fun a b => prodKeyLe a b = true)).take 20

/-- `GET /products` (lines 444–450): every row, same ordering, no limit. -/
def listProducts (db : Db) : List Product :=
  db.products.insertionSort (fun a b => prodKeyLe a b = true)

/-! ### Bill transaction: `POST /bills` (lines 531–565) -/

/-- One entry of the request's `items` array, after the untyped JSON field
extraction of lines 538–541 (`as_i64().unwrap_or(0)`,
`as_str().unwrap_or("")`). -/
structure RawItem where
  product_id : ℤ
  product_name : Str
  unit_price_cents : ℤ
  qty : ℤ
deriving DecidableEq

/-- A validated line item (struct `It`, line 536). -/
structure LineItem where
  product_id : ℤ
  product_name : Str
  unit_price_cents : ℤ
  qty : ℤ
  line_total_cents : ℤ
deriving DecidableEq

def errNoItems : Str := "No items".data

def errNoValidItems : Str := "No valid items".data

def errBillNoTaken : Str := "UNIQUE constraint failed: bills.bill_no".data

def errFkFailed : Str := "FOREIGN KEY constraint failed".data

/-- The validation filter of lines 537–543: trim the name, floor negative
unit prices to 0, clamp qty into `[1,1000]`, and drop items with a
non-positive `product_id` or an empty trimmed name. -/
def validItems (raw : List RawItem) : List LineItem :=
  raw.filterMap fun it =>
    let pn := rustTrim it.product_name
    let u := max it.unit_price_cents 0
    let q := min (max it.qty 1) 1000
    if 0 < it.product_id ∧ pn ≠ [] then
      some ⟨it.product_id, pn, u, q, q * u⟩
    else none

/-- `POST /bills` (lines 531–565).  Validation happens before the store is
touched; the transaction seeds/increments `bill_seq`, formats the bill
number, inserts the bill and its items and commits — any SQLite failure
(bill-number uniqueness, foreign keys, with `PRAGMA foreign_keys = ON`)
rolls the whole transaction back, leaving the store unchanged. -/
def billsCall (db : Db) (raw : List RawItem) (dr : ℤ) : Except Str (Db × Str) :=
  if raw = [] then .error errNoItems
  else
    let items := validItems raw
    if items = [] then .error errNoValidItems
    else
      let subtotal := (items.map LineItem.line_total_cents).sum
      let dc := f64Discount subtotal dr
      let total := subtotal - dc
      let seq := db.bill_seq + 1
      let no := billNoStr seq
      if no ∈ db.bills.map Bill.bill_no then .error errBillNoTaken
      else if ¬ (∀ it ∈ items, it.product_id ∈ db.products.map fun p => (p.id : ℤ)) then
        .error errFkFailed
      else
        .ok ({ db with
          bill_seq := seq,
          bills := db.bills ++ [⟨db.bills.length + 1, no, subtotal, dr, dc, total⟩],
          bill_items := db.bill_items ++ items.map fun it =>
            ⟨db.bills.length + 1, it.product_id, it.product_name,
              it.unit_price_cents, it.qty, it.line_total_cents⟩ }, no)

/-- A sequence of `/bills` calls against one store; returns the final store
and the bill numbers assigned to the successful calls, in order.  A failed
call leaves the store exactly as it was (rollback). -/
def runBills (db : Db) : List (List RawItem × ℤ) → Db × List Str
  | [] => (db, [])
  | r :: rs =>
    match billsCall db r.1 r.2 with
    | .ok (db', no) =>
      let rest := runBills db' rs
      (rest.1, no :: rest.2)
    | .error _ => runBills db rs

/-- Whether a `/bills` request succeeds; this depends only on the request
and the product catalog (which `/bills` never modifies). -/
def billOk (ps : List Product) (r : List RawItem × ℤ) : Bool :=
  (!r.1.isEmpty) && (!(validItems r.1).isEmpty) &&
    (validItems r.1).all fun it => decide (it.product_id ∈ ps.map fun p => (p.id : ℤ))

/-! ### Backups: `list_backups` (lines 349–370) -/

/-- One entry of `read_dir` as the code observes it: path metadata plus the
`fs::metadata` results.  Entries whose iterator step failed are already
absent (`entries.flatten()`), and `metaOk = false` models a failing
`fs::metadata` (the entry is skipped, line 357). -/
structure DirEntry where
  name : Str
  path : Str
  isFile : Bool
  ext : Option Str
  metaOk : Bool
  size : ℕ
  mtime : Option ℕ
deriving DecidableEq

/-- A row of the `list_backups` result (name, full path, size, modified). -/
structure BackupRow where
  name : Str
  path : Str
  size : ℕ
  modified : Str
deriving DecidableEq

/-- `modified`: epoch seconds rendered as a decimal string;
`unwrap_or_default()` gives `""` when the timestamp is unavailable. -/
def mtimeStr : Option ℕ → Str
  | some s => decChars s
  | none => []

/-- `list_backups(dir)` (lines 349–370): `none` models an unreadable
directory (`read_dir` failed).  Keeps regular files with extension `db`
whose metadata is readable, then sorts by the `modified` *string*,
descending (`results.sort_by(|a, b| b.3.cmp(&a.3))` — a stable sort, as is
the insertion sort used here). -/
def listBackups (dir : Option (List DirEntry)) : List BackupRow :=
  match dir with
  | none => []
  | some entries =>
    (entries.filterMap fun e =>
      if e.isFile && (e.ext == some ('d' :: ['b'])) && e.metaOk then
        some (⟨e.name, e.path, e.size, mtimeStr e.mtime⟩ : BackupRow)
      else none).insertionSort fun a b => strLeB b.modified a.modified = true

/-! ### Restore: `POST /backup/restore` (lines 638–664)

Only the hot-swap part (lines 653–663) is modelled: source resolution
happens before the connection is touched.  The filesystem outcomes of the
two fallible steps (`fs::copy` over the live path, `init_db` re-open) are
inputs of the model. -/

def errDbUnavailable : Str := "Database not available".data

/-- Whether the shared connection slot (`db: Mutex<Option<Connection>>`)
holds a connection. -/
structure StoreConn where
  attached : Bool
deriving DecidableEq

/-- The gate every store operation goes through (`with_db`, lines 22–29). -/
def withDbAvail (st : StoreConn) : Except Str Unit :=
  if st.attached then .ok () else .error errDbUnavailable

/-- Outcomes of the fallible filesystem steps during restore. -/
structure RestoreFs where
  copyOk : Bool
  copyErrMsg : Str
  initOk : Bool
  initErrMsg : Str
deriving DecidableEq

/-- Lines 653–663: take the connection out of the mutex (checkpoint and
close are best-effort), delete the WAL/SHM sidecars (best-effort), copy the
backup over the live path (`?` on failure), re-open with `init_db` (`?` on
failure), and only then put a new connection back. -/
def restoreSwap (fs : RestoreFs) (_st : StoreConn) : StoreConn × Except Str Unit :=
  if fs.copyOk = false then (⟨false⟩, .error ("Restore: ".data ++ fs.copyErrMsg))
  else if fs.initOk = false then (⟨false⟩, .error fs.initErrMsg)
  else (⟨true⟩, .ok ())

/-! ### Supporting lemmas for the bill-sequence invariant -/

theorem billNoStr_fresh (s : ℕ) :
    billNoStr (s + 1) ∉ (List.range' 1 s).map billNoStr := by
  intro hmem
  obtain ⟨m, hm, heq⟩ := List.mem_map.mp hmem
  have h1 := billNoStr_injective heq
  have h2 := List.mem_range'_1.mp hm
  omega

theorem billOk_decompose (ps : List Product) (raw : List RawItem) (dr : ℤ)
    (hok : billOk ps (raw, dr) = true) :
    raw ≠ [] ∧ validItems raw ≠ [] ∧
      ∀ it ∈ validItems raw, it.product_id ∈ ps.map fun p => (p.id : ℤ) := by
  simp only [billOk, Bool.and_eq_true, Bool.not_eq_true', List.all_eq_true,
    decide_eq_true_eq] at hok
  refine ⟨?_, ?_, hok.2⟩
  · intro h
    rw [h] at hok
    simp at hok
  · intro h
    rw [h] at hok
    simp at hok

theorem billsCall_ok (db : Db) (raw : List RawItem) (dr : ℤ) (s : ℕ)
    (hseq : db.bill_seq = s)
    (hnos : db.bills.map Bill.bill_no = (List.range' 1 s).map billNoStr)
    (hok : billOk db.products (raw, dr) = true) :
    ∃ db', billsCall db raw dr = .ok (db', billNoStr (s + 1)) ∧
      db'.bill_seq = s + 1 ∧ db'.products = db.products ∧
      db'.bills.map Bill.bill_no = (List.range' 1 (s + 1)).map billNoStr := by
  obtain ⟨hraw, hval, hfk⟩ := billOk_decompose db.products raw dr hok
  have hfresh : billNoStr (db.bill_seq + 1) ∉ db.bills.map Bill.bill_no := by
    rw [hseq, hnos]
    exact billNoStr_fresh s
  simp only [billsCall, if_neg hraw, if_neg hval, if_neg hfresh, if_neg (not_not.mpr hfk)]
  subst hseq
  refine ⟨_, rfl, by simp, rfl, ?_⟩
  simp only [List.map_append, hnos, List.map_cons, List.map_nil]
  rw [List.range'_concat 1 db.bill_seq, List.map_append]
  norm_num
  rw [Nat.add_comm]

theorem billsCall_err (db : Db) (raw : List RawItem) (dr : ℤ) (s : ℕ)
    (hseq : db.bill_seq = s)
    (hnos : db.bills.map Bill.bill_no = (List.range' 1 s).map billNoStr)
    (hbad : billOk db.products (raw, dr) = false) :
    ∃ e, billsCall db raw dr = .error e := by
  by_cases hraw : raw = []
  · exact ⟨errNoItems, by rw [billsCall, if_pos hraw]⟩
  · by_cases hval : validItems raw = []
    · exact ⟨errNoValidItems, by simp only [billsCall, if_neg hraw, if_pos hval]⟩
    · have hfresh : billNoStr (db.bill_seq + 1) ∉ db.bills.map Bill.bill_no := by
        rw [hseq, hnos]
        exact billNoStr_fresh s
      have hfk : ¬ ∀ it ∈ validItems raw, it.product_id ∈ db.products.map fun p => (p.id : ℤ) := by
        intro hall
        have hT : billOk db.products (raw, dr) = true := by
          simp only [billOk, Bool.and_eq_true, Bool.not_eq_true', List.all_eq_true,
            decide_eq_true_eq]
          refine ⟨⟨?_, ?_⟩, hall⟩
          · simp [List.isEmpty_iff, hraw]
          · simp [List.isEmpty_iff, hval]
        rw [hT] at hbad
        cases hbad
      exact ⟨errFkFailed,
        by simp only [billsCall, if_neg hraw, if_neg hval, if_neg hfresh, if_pos hfk]⟩

theorem runBills_spec (ps : List Product) :
    ∀ (reqs : List (List RawItem × ℤ)) (db : Db) (s : ℕ),
      db.products = ps → db.bill_seq = s →
      db.bills.map Bill.bill_no = (List.range' 1 s).map billNoStr →
      (runBills db reqs).2 = (List.range' (s + 1) (reqs.countP (billOk ps))).map billNoStr ∧
        (runBills db reqs).1.bill_seq = s + reqs.countP (billOk ps) := by
  intro reqs
  induction reqs with
  | nil => intro db s hp hs hn; simp [runBills]; omega
  | cons r rs ih =>
    intro db s hp hs hn
    by_cases hok : billOk ps r = true
    · obtain ⟨db', hcall, hseq', hprod', hnos'⟩ :=
        billsCall_ok db r.1 r.2 s hs hn (by rw [hp]; exact hok)
      have hcount : (r :: rs).countP (billOk ps) = rs.countP (billOk ps) + 1 :=
        List.countP_cons_of_pos (billOk ps) rs hok
      obtain ⟨ih1, ih2⟩ := ih db' (s + 1) (hprod'.trans hp) hseq' hnos'
      constructor
      · rw [runBills]
        rw [hcall]
        simp only
        rw [ih1, hcount, List.range'_succ]
        simp
      · rw [runBills, hcall]
        simp only
        rw [ih2, hcount]
        omega
    · have hbad : billOk db.products (r.1, r.2) = false := by
        rw [hp]
        simpa using eq_false_of_ne_true hok
      obtain ⟨e, hcall⟩ := billsCall_err db r.1 r.2 s hs hn hbad
      have hcount : (r :: rs).countP (billOk ps) = rs.countP (billOk ps) :=
        List.countP_cons_of_neg (billOk ps) rs (by simpa using hok)
      obtain ⟨ih1, ih2⟩ := ih db s hp hs hn
      constructor
      · rw [runBills]
        rw [show billsCall db r.1 r.2 = .error e from hcall, ih1, hcount]
      · rw [runBills, show billsCall db r.1 r.2 = .error e from hcall, ih2, hcount]

/-! ### Supporting lemmas: validation, allocation, search, receipt -/

theorem validItems_mem_bounds (raw : List RawItem) (v : LineItem) (hv : v ∈ validItems raw) :
    1 ≤ v.qty ∧ v.qty ≤ 1000 ∧ 0 ≤ v.unit_price_cents ∧ 0 < v.product_id ∧
      v.product_name ≠ [] ∧ v.line_total_cents = v.qty * v.unit_price_cents := by
  obtain ⟨a, _, hfa⟩ := List.mem_filterMap.mp hv
  by_cases h : 0 < a.product_id ∧ rustTrim a.product_name ≠ []
  · simp only [if_pos h, Option.some_inj] at hfa
    subst hfa
    dsimp only
    refine ⟨?_, ?_, ?_, h.1, h.2, rfl⟩ <;> omega
  · simp only [if_neg h] at hfa
    cases hfa

theorem validItems_eq_filter_map (raw : List RawItem) :
    validItems raw =
      (raw.filter fun it =>
          decide (0 < it.product_id) && !(rustTrim it.product_name).isEmpty).map
        fun it =>
          (⟨it.product_id, rustTrim it.product_name, max it.unit_price_cents 0,
            min (max it.qty 1) 1000,
            min (max it.qty 1) 1000 * max it.unit_price_cents 0⟩ : LineItem) := by
  induction raw with
  | nil => rfl
  | cons it its ih =>
    by_cases h : 0 < it.product_id ∧ rustTrim it.product_name ≠ []
    · have hb : (decide (0 < it.product_id) && !(rustTrim it.product_name).isEmpty) = true := by
        simp [h.1, List.isEmpty_iff, h.2]
      simp only [validItems, List.filterMap_cons, if_pos h] at *
      simp only [List.filter_cons, hb, if_pos, List.map_cons, ih]
    · have hb : (decide (0 < it.product_id) && !(rustTrim it.product_name).isEmpty) = false := by
        rcases not_and_or.mp h with h1 | h1
        · simp [h1]
        · simp only [ne_eq, not_not] at h1
          simp [h1]
      simp only [validItems, List.filterMap_cons, if_neg h] at *
      simp only [List.filter_cons, hb, Bool.false_eq_true, if_neg, ih]
      simp

theorem createProduct_outOfRange (db : Db) (name : Str) (cat : Option Str) (price : ℤ)
    (n : ℤ) (h : n < 1 ∨ 9999 < n) :
    createProduct db name cat price (some n) = createProduct db name cat price none := by
  simp only [createProduct]
  rw [if_neg (by omega)]

theorem createProduct_overflow (db : Db) (name : Str) (cat : Option Str) (price : ℤ)
    (h : 9999 ≤ maxNo db) :
    createProduct db name cat price none = .error errItemNoOverflow := by
  simp only [createProduct]
  rw [show (3 : ℕ) = 2 + 1 from rfl, allocLoop]
  rw [if_pos (Or.inr (by omega))]

theorem retryAlloc_exhausted (collide : ℕ → Bool)
    (h0 : collide 0 = true) (h1 : collide 1 = true) (h2 : collide 2 = true) :
    retryAlloc collide 3 0 = .error errAllocExhausted := by
  rw [show (3 : ℕ) = 2 + 1 from rfl, retryAlloc, if_pos h0]
  rw [show (2 : ℕ) = 1 + 1 from rfl, retryAlloc, if_pos (by simpa using h1)]
  rw [show (1 : ℕ) = 0 + 1 from rfl, retryAlloc, if_pos (by simpa using h2)]
  rw [retryAlloc]

theorem retryAlloc_stops (collide : ℕ → Bool) (h0 : collide 0 = false) :
    retryAlloc collide 3 0 = .ok 0 := by
  rw [show (3 : ℕ) = 2 + 1 from rfl, retryAlloc, if_neg (by simp [h0])]

theorem searchProducts_only (db : Db) (q : Str) (p : Product)
    (hp : p ∈ searchProducts db q) : p ∈ db.products ∧ searchPred q p = true := by
  have h1 := List.take_subset 20 _ hp
  rw [List.mem_insertionSort] at h1
  exact List.mem_filter.mp h1

theorem searchProducts_mem_iff (db : Db) (q : Str) (p : Product)
    (hlen : (db.products.filter (searchPred q)).length ≤ 20) :
    p ∈ searchProducts db q ↔ p ∈ db.products ∧ searchPred q p = true := by
  unfold searchProducts
  rw [List.take_of_length_le (by simpa using hlen), List.mem_insertionSort, List.mem_filter]

theorem utf8Len_ge_length (s : Str) : s.length ≤ utf8Len s := by
  induction s with
  | nil => simp [utf8Len]
  | cons c cs ih =>
    have := Char.utf8Size_pos c
    simp only [utf8Len, List.map_cons, List.sum_cons, List.length_cons] at *
    omega

theorem padRightR_full (v : Str) (w : ℕ) (h : w ≤ utf8Len v) : padRightR v w = v :=
  if_pos h

theorem fitText_long (v : Str) (h : 20 ≤ (rustTrim v).length) :
    (fitText v 20).length = 20 := by
  simp [fitText, List.length_take]
  omega

theorem itemLine_name_col_long (it : ReceiptItem) (h : 20 ≤ (rustTrim it.name).length) :
    (itemLine it).take 20 = (rustTrim it.name).take 20 := by
  have hlen : (fitText it.name 20).length = 20 := fitText_long it.name h
  have hpad : padRightR (fitText it.name 20) 20 = fitText it.name 20 :=
    padRightR_full _ _ (le_trans (by omega) (utf8Len_ge_length _))
  unfold itemLine
  rw [hpad, List.take_left' hlen]
  rfl

/-! ### Supporting lemmas: lexicographic order of rendered timestamps -/

theorem strLeB_total : ∀ s t : Str, strLeB s t = true ∨ strLeB t s = true := by
  intro s
  induction s with
  | nil => intro t; left; rfl
  | cons a as ih =>
    intro t
    cases t with
    | nil => right; rfl
    | cons b bs =>
      simp only [strLeB, Bool.or_eq_true, Bool.and_eq_true, decide_eq_true_eq, beq_iff_eq]
      rcases lt_trichotomy a b with h | h | h
      · exact Or.inl (Or.inl h)
      · rcases ih bs with h' | h'
        · exact Or.inl (Or.inr ⟨h, h'⟩)
        · exact Or.inr (Or.inr ⟨h.symm, h'⟩)
      · exact Or.inr (Or.inl h)

theorem strLeB_trans : ∀ s t u : Str,
    strLeB s t = true → strLeB t u = true → strLeB s u = true := by
  intro s
  induction s with
  | nil => intro t u _ _; rfl
  | cons a as ih =>
    intro t u hst htu
    cases t with
    | nil => cases hst
    | cons b bs =>
      cases u with
      | nil => cases htu
      | cons c cs =>
        simp only [strLeB, Bool.or_eq_true, Bool.and_eq_true, decide_eq_true_eq,
          beq_iff_eq] at *
        rcases hst with h1 | ⟨h1, h1'⟩ <;> rcases htu with h2 | ⟨h2, h2'⟩
        · exact Or.inl (lt_trans h1 h2)
        · exact Or.inl (h2 ▸ h1)
        · exact Or.inl (h1 ▸ h2)
        · exact Or.inr ⟨h1.trans h2, ih bs cs h1' h2'⟩

/-- Numeric value of a most-significant-first digit list (proofs only). -/
def valMSB (l : List ℕ) : ℕ := l.foldl (fun a d => 10 * a + d) 0

theorem valMSB_foldl_shift : ∀ (l : List ℕ) (a : ℕ),
    List.foldl (fun a d => 10 * a + d) a l = a * 10 ^ l.length + valMSB l := by
  intro l
  induction l with
  | nil => intro a; simp [valMSB]
  | cons d ds ih =>
    intro a
    simp only [List.foldl_cons, List.length_cons, valMSB] at *
    rw [ih (10 * a + d), ih (10 * 0 + d)]
    ring

theorem valMSB_cons (x : ℕ) (xs : List ℕ) :
    valMSB (x :: xs) = x * 10 ^ xs.length + valMSB xs := by
  show List.foldl (fun a d => 10 * a + d) (10 * 0 + x) xs = _
  rw [valMSB_foldl_shift]
  ring

theorem valMSB_lt (l : List ℕ) (h : ∀ d ∈ l, d < 10) : valMSB l < 10 ^ l.length := by
  induction l with
  | nil => simp [valMSB]
  | cons d ds ih =>
    have hd : d < 10 := h d (List.mem_cons_self d ds)
    have hds := ih fun x hx => h x (List.mem_cons_of_mem d hx)
    simp only [valMSB, List.foldl_cons, List.length_cons]
    rw [valMSB_foldl_shift ds (10 * 0 + d)]
    have : 10 ^ (ds.length + 1) = 10 * 10 ^ ds.length := by ring
    nlinarith

theorem digitChar_lt_iff {x y : ℕ} (hx : x < 10) (hy : y < 10) :
    digitChar x < digitChar y ↔ x < y := by
  interval_cases x <;> interval_cases y <;> simp <;> decide

theorem digitChar_eq_iff {x y : ℕ} (hx : x < 10) (hy : y < 10) :
    digitChar x = digitChar y ↔ x = y := by
  interval_cases x <;> interval_cases y <;> simp <;> decide

theorem strLeB_digits : ∀ xs ys : List ℕ, (∀ d ∈ xs, d < 10) → (∀ d ∈ ys, d < 10) →
    xs.length = ys.length →
    (strLeB (xs.map digitChar) (ys.map digitChar) = true ↔ valMSB xs ≤ valMSB ys) := by
  intro xs
  induction xs with
  | nil =>
    intro ys _ _ hlen
    have : ys = [] := List.length_eq_zero.mp hlen.symm
    subst this
    simp [strLeB, valMSB]
  | cons x xs' ih =>
    intro ys hxd hyd hlen
    cases ys with
    | nil => cases hlen
    | cons y ys' =>
      have hx : x < 10 := hxd x (List.mem_cons_self x xs')
      have hy : y < 10 := hyd y (List.mem_cons_self y ys')
      have hxs' : ∀ d ∈ xs', d < 10 := fun d hd => hxd d (List.mem_cons_of_mem x hd)
      have hys' : ∀ d ∈ ys', d < 10 := fun d hd => hyd d (List.mem_cons_of_mem y hd)
      have hlen' : xs'.length = ys'.length := by simpa using hlen
      have hvx : valMSB (x :: xs') = x * 10 ^ ys'.length + valMSB xs' := by
        rw [valMSB_cons, hlen']
      have hvy : valMSB (y :: ys') = y * 10 ^ ys'.length + valMSB ys' := valMSB_cons y ys'
      have hbx : valMSB xs' < 10 ^ ys'.length := by
        rw [← hlen']
        exact valMSB_lt xs' hxs'
      have hby : valMSB ys' < 10 ^ ys'.length := valMSB_lt ys' hys'
      simp only [List.map_cons, strLeB, Bool.or_eq_true, Bool.and_eq_true,
        decide_eq_true_eq, beq_iff_eq]
      rcases lt_trichotomy x y with hc | hc | hc
      · constructor
        · intro _
          rw [hvx, hvy]
          refine le_of_lt ?_
          calc x * 10 ^ ys'.length + valMSB xs'
              < x * 10 ^ ys'.length + 10 ^ ys'.length := Nat.add_lt_add_left hbx _
          _ = (x + 1) * 10 ^ ys'.length := by ring
          _ ≤ y * 10 ^ ys'.length := Nat.mul_le_mul_right _ (by omega)
          _ ≤ y * 10 ^ ys'.length + valMSB ys' := Nat.le_add_right _ _
        · intro _
          exact Or.inl ((digitChar_lt_iff hx hy).mpr hc)
      · subst hc
        constructor
        · intro hor
          rcases hor with hlt | ⟨_, hrec⟩
          · exact absurd ((digitChar_lt_iff hx hx).mp hlt) (lt_irrefl x)
          · rw [hvx, hvy]
            have := (ih ys' hxs' hys' hlen').mp hrec
            omega
        · intro hle
          refine Or.inr ⟨rfl, (ih ys' hxs' hys' hlen').mpr ?_⟩
          rw [hvx, hvy] at hle
          omega
      · have hgt : valMSB (y :: ys') < valMSB (x :: xs') := by
          rw [hvx, hvy]
          calc y * 10 ^ ys'.length + valMSB ys'
              < y * 10 ^ ys'.length + 10 ^ ys'.length := Nat.add_lt_add_left hby _
          _ = (y + 1) * 10 ^ ys'.length := by ring
          _ ≤ x * 10 ^ ys'.length := Nat.mul_le_mul_right _ (by omega)
          _ ≤ x * 10 ^ ys'.length + valMSB xs' := Nat.le_add_right _ _
        constructor
        · intro hor
          rcases hor with hlt | ⟨heq, _⟩
          · exact absurd ((digitChar_lt_iff hx hy).mp hlt) (by omega)
          · exact absurd ((digitChar_eq_iff hx hy).mp heq) (by omega)
        · intro hle
          exact absurd hle (by omega)

/-- The digit list whose rendering is `decChars`. -/
def digitsOf (n : ℕ) : List ℕ := if n = 0 then [0] else (decDigits n).reverse

theorem decChars_eq_map (n : ℕ) : decChars n = (digitsOf n).map digitChar := by
  unfold decChars digitsOf
  by_cases h : n = 0
  · rw [if_pos h, if_pos h]
    rfl
  · rw [if_neg h, if_neg h]

theorem digitsOf_lt10 (n : ℕ) : ∀ d ∈ digitsOf n, d < 10 := by
  unfold digitsOf
  by_cases h : n = 0
  · rw [if_pos h]
    intro d hd
    simp at hd
    omega
  · rw [if_neg h]
    intro d hd
    exact decDigitsAux_lt10 n n d (List.mem_reverse.mp hd)

theorem valMSB_reverse : ∀ l : List ℕ, valMSB l.reverse = ofDigitsLSB l := by
  intro l
  induction l with
  | nil => rfl
  | cons d ds ih =>
    simp only [List.reverse_cons, ofDigitsLSB]
    unfold valMSB
    rw [List.foldl_append, valMSB_foldl_shift [d] (List.foldl _ 0 ds.reverse)]
    simp only [List.length_singleton]
    have : valMSB [d] = d := by simp [valMSB]
    rw [this, ← valMSB, ih]
    ring

theorem valMSB_digitsOf (n : ℕ) : valMSB (digitsOf n) = n := by
  unfold digitsOf
  by_cases h : n = 0
  · rw [if_pos h, h]
    simp [valMSB]
  · rw [if_neg h, valMSB_reverse]
    exact decDigitsAux_val n n le_rfl

theorem decChars_le_iff (m n : ℕ) (hlen : (decChars m).length = (decChars n).length) :
    (strLeB (decChars m) (decChars n) = true ↔ m ≤ n) := by
  rw [decChars_eq_map, decChars_eq_map] at hlen ⊢
  have hlen' : (digitsOf m).length = (digitsOf n).length := by simpa using hlen
  rw [strLeB_digits (digitsOf m) (digitsOf n) (digitsOf_lt10 m) (digitsOf_lt10 n) hlen',
    valMSB_digitsOf, valMSB_digitsOf]

theorem decChars_ne_nil (n : ℕ) : decChars n ≠ [] := by
  unfold decChars
  by_cases h : n = 0
  · rw [if_pos h]
    simp
  · rw [if_neg h]
    intro hc
    have h1 : ofDigitsLSB (decDigitsAux n n) = n := decDigitsAux_val n n le_rfl
    have h2 : decDigitsAux n n = [] := by
      have := congrArg List.length hc
      simp only [List.length_map, List.length_reverse, List.length_nil] at this
      exact List.length_eq_zero.mp this
    rw [h2] at h1
    exact h (h1.symm.trans rfl)

theorem decVal_mtimeStr (s : ℕ) : decVal (mtimeStr (some s)) = s := decVal_decChars s

theorem listBackups_sorted (entries : List DirEntry) :
    (listBackups (some entries)).Sorted fun a b => strLeB b.modified a.modified = true := by
  haveI : IsTotal BackupRow (fun a b => strLeB b.modified a.modified = true) :=
    ⟨fun a b => (strLeB_total b.modified a.modified).elim Or.inl Or.inr⟩
  haveI : IsTrans BackupRow (fun a b => strLeB b.modified a.modified = true) :=
    ⟨fun a b c hab hbc => strLeB_trans c.modified b.modified a.modified hbc hab⟩
  exact List.sorted_insertionSort _ _

theorem listBackups_mem_iff (entries : List DirEntry) (row : BackupRow) :
    row ∈ listBackups (some entries) ↔
      ∃ e ∈ entries, (e.isFile && (e.ext == some ('d' :: ['b'])) && e.metaOk) = true ∧
        row = ⟨e.name, e.path, e.size, mtimeStr e.mtime⟩ := by
  unfold listBackups
  rw [List.mem_insertionSort]
  rw [List.mem_filterMap]
  constructor
  · rintro ⟨e, he, hfe⟩
    by_cases hc : (e.isFile && (e.ext == some ('d' :: ['b'])) && e.metaOk) = true
    · rw [if_pos hc, Option.some_inj] at hfe
      exact ⟨e, he, hc, hfe.symm⟩
    · rw [if_neg hc] at hfe
      cases hfe
  · rintro ⟨e, he, hc, hrow⟩
    exact ⟨e, he, by rw [if_pos hc, hrow]⟩

/-- Equal-length rendered timestamps compare numerically. -/
theorem mtimeStr_le_iff (ma mb : Option ℕ)
    (hlen : (mtimeStr ma).length = (mtimeStr mb).length)
    (hle : strLeB (mtimeStr ma) (mtimeStr mb) = true) :
    decVal (mtimeStr ma) ≤ decVal (mtimeStr mb) := by
  cases ma with
  | none =>
    cases mb with
    | none => simp [mtimeStr]
    | some vb =>
      exfalso
      have h1 : (mtimeStr (none : Option ℕ)).length = 0 := rfl
      have h2 : (mtimeStr (some vb)).length ≠ 0 := by
        simp only [mtimeStr]
        intro hc
        exact decChars_ne_nil vb (List.length_eq_zero.mp hc)
      rw [h1] at hlen
      exact h2 hlen.symm
  | some va =>
    cases mb with
    | none =>
      exfalso
      have h2 : (mtimeStr (some va)).length ≠ 0 := by
        simp only [mtimeStr]
        intro hc
        exact decChars_ne_nil va (List.length_eq_zero.mp hc)
      exact h2 hlen
    | some vb =>
      simp only [mtimeStr] at *
      rw [decVal_decChars, decVal_decChars]
      exact (decChars_le_iff va vb hlen).mp hle

theorem listBackups_sorted_numeric (entries : List DirEntry)
    (hlen : ∀ a ∈ entries, ∀ b ∈ entries,
      (mtimeStr a.mtime).length = (mtimeStr b.mtime).length) :
    (listBackups (some entries)).Sorted fun a b => decVal b.modified ≤ decVal a.modified := by
  have hs := listBackups_sorted entries
  refine List.Pairwise.imp_of_mem ?_ hs
  intro a b ha hb hr
  obtain ⟨ea, hea, _, hrowa⟩ := (listBackups_mem_iff entries a).mp ha
  obtain ⟨eb, heb, _, hrowb⟩ := (listBackups_mem_iff entries b).mp hb
  have hma : a.modified = mtimeStr ea.mtime := by rw [hrowa]
  have hmb : b.modified = mtimeStr eb.mtime := by rw [hrowb]
  rw [hma, hmb]
  rw [hma, hmb] at hr
  exact mtimeStr_le_iff eb.mtime ea.mtime (hlen eb heb ea hea) hr

/-! ### Concrete instances used by witnesses and counterexamples -/

/-- A one-product catalog for exercising `/bills` (product id 1). -/
def demoProduct : Product := ⟨1, none, ['x'], none, 0, 1⟩

/-- A fresh store holding only `demoProduct`. -/
def c3db : Db := initDb [demoProduct]

/-- One bill line: product 1, unit price 1000 cents, quantity 1. -/
def c3raw : List RawItem := [⟨1, ['x'], 1000, 1⟩]

/-- The store expected after `billsCall c3db c3raw 250`. -/
def c3after : Db :=
  ⟨[demoProduct], [⟨1, billNoStr 1, 1000, 250, 25, 975⟩], [⟨1, 1, ['x'], 1000, 1, 1000⟩], 1⟩

/-- One bill line whose unit price is `2^53 + 1` cents. -/
def ce3raw : List RawItem := [⟨1, ['x'], 9007199254740993, 1⟩]

/-- The store expected after `billsCall c3db ce3raw 10000`: the `f64`
discount computation loses the bottom bit of `2^53 + 1`. -/
def ce3after : Db :=
  ⟨[demoProduct],
    [⟨1, billNoStr 1, 9007199254740993, 10000, 9007199254740992, 1⟩],
    [⟨1, 1, ['x'], 9007199254740993, 1, 9007199254740993⟩], 1⟩

/-- The store after three auto-allocated product creations. -/
def c5db3 : Db :=
  ((((createProduct (initDb []) ['a'] none 100 none).toOption.getD (initDb [])
    |> fun d => (createProduct d ['b'] none 100 none).toOption.getD d)
    |> fun d => (createProduct d ['c'] none 100 none).toOption.getD d))

/-- A store whose allocator is saturated (`item_no` 9999 taken). -/
def c5dbMax : Db := initDb [⟨1, some 9999, ['m'], none, 0, 1⟩]

/-- An available product named `Pizza`. -/
def c6prod : Product := ⟨1, none, "Pizza".data, none, 500, 1⟩

def c6db : Db := initDb [c6prod]

/-- An available product for the search-availability witness. -/
def c10prodA : Product := ⟨1, some 7, "Tea".data, none, 100, 1⟩

/-- A disabled product that search must hide. -/
def c10prodB : Product := ⟨2, some 8, "Tea Old".data, none, 100, 0⟩

def c10db : Db := initDb [c10prodA, c10prodB]

/-- Two backup files whose epoch timestamps have 9 and 10 digits. -/
def c7e1 : DirEntry :=
  ⟨"a.db".data, "bk/a.db".data, true, some ('d' :: ['b']), true, 10, some 999999999⟩

def c7e2 : DirEntry :=
  ⟨"b.db".data, "bk/b.db".data, true, some ('d' :: ['b']), true, 11, some 1000000000⟩

/-- Two backup files with 10-digit timestamps (for the witness). -/
def c7f1 : DirEntry :=
  ⟨"c.db".data, "bk/c.db".data, true, some ('d' :: ['b']), true, 12, some 1700000000⟩

def c7f2 : DirEntry :=
  ⟨"d.db".data, "bk/d.db".data, true, some ('d' :: ['b']), true, 13, some 1800000000⟩

/-- An item whose name has a leading space (2 chars, so "at most 20"). -/
def c8item : ReceiptItem := ⟨' ' :: ['a'], 1, 100, 100⟩

/-- An item with a 21-character whitespace-free name. -/
def c8long : ReceiptItem :=
  ⟨"abcdefghijklmnopqrstu".data, 2, 250, 500⟩

/-! ### The claims -/

/-- C1: starting from `bill_seq = 0` and no bills, the bill numbers assigned
to the successful `/bills` calls of any call sequence are exactly
`MNE-000001 … MNE-00000N` (`N` = number of successful calls), in order,
gap-free and strictly increasing; any rejected call leaves the store
unchanged — in particular a nonempty request whose filtered item list is
empty is rejected with `No valid items` before the transaction starts, so it
consumes no sequence value and leaves `bill_seq` untouched. -/
theorem claim_C1_bill_sequence (ps : List Product) (reqs : List (List RawItem × ℤ)) :
    (runBills (initDb ps) reqs).2 =
      (List.range' 1 (reqs.countP (billOk ps))).map billNoStr ∧
    (runBills (initDb ps) reqs).1.bill_seq = reqs.countP (billOk ps) ∧
    billNoStr 1 = "MNE-000001".data ∧
    (∀ (db : Db) (raw : List RawItem) (dr : ℤ) (rs : List (List RawItem × ℤ)),
      raw ≠ [] → validItems raw = [] →
      billsCall db raw dr = Except.error errNoValidItems ∧
        runBills db ((raw, dr) :: rs) = runBills db rs) := by
  obtain ⟨h1, h2⟩ := runBills_spec ps reqs (initDb ps) 0 rfl rfl rfl
  refine ⟨by simpa using h1, by simpa using h2, by decide, ?_⟩
  intro db raw dr rs hraw hval
  have hcall : billsCall db raw dr = Except.error errNoValidItems := by
    simp only [billsCall, if_neg hraw, if_pos hval]
  exact ⟨hcall, by rw [runBills, hcall]⟩

theorem claim_C1_witness :
    billsCall (initDb []) [⟨0, [], 0, 0⟩] 0 = Except.error errNoValidItems ∧
      runBills (initDb []) [([⟨0, [], 0, 0⟩], 0)] = runBills (initDb []) [] :=
  (claim_C1_bill_sequence [] []).2.2.2 (initDb []) [⟨0, [], 0, 0⟩] 0 []
    (by decide) (by decide)

/-- C2: the claim is right and the code is wrong.  If `fs::copy` fails after
the live connection has been taken out of the mutex (lines 653–660), the
handler returns through `?` without re-attaching any connection: the store
stays detached and every later store operation fails with
`Database not available`, permanently. -/
theorem claim_C2_restore_detached :
    (restoreSwap ⟨false, "copy failed".data, true, []⟩ ⟨true⟩).1.attached = false ∧
    (restoreSwap ⟨false, "copy failed".data, true, []⟩ ⟨true⟩).2 =
      Except.error ("Restore: ".data ++ "copy failed".data) ∧
    withDbAvail (restoreSwap ⟨false, "copy failed".data, true, []⟩ ⟨true⟩).1 =
      Except.error errDbUnavailable :=
  ⟨rfl, rfl, rfl⟩

/-- C4 (amended): validation drops exactly the items with non-positive
`product_id` or empty trimmed name, clamps `qty` into `[1,1000]` and floors
negative unit prices to 0; a nonempty request whose filtered list is empty
is rejected with `No valid items`; an *empty* items array is rejected
earlier with the distinct error `No items`; a rejected call creates no bill
and leaves the store unchanged. -/
theorem claim_C4_validation :
    (∀ (raw : List RawItem) (v : LineItem), v ∈ validItems raw →
      1 ≤ v.qty ∧ v.qty ≤ 1000 ∧ 0 ≤ v.unit_price_cents ∧ 0 < v.product_id ∧
        v.product_name ≠ [] ∧ v.line_total_cents = v.qty * v.unit_price_cents) ∧
    (∀ raw : List RawItem, validItems raw =
      (raw.filter fun it =>
          decide (0 < it.product_id) && !(rustTrim it.product_name).isEmpty).map
        fun it =>
          (⟨it.product_id, rustTrim it.product_name, max it.unit_price_cents 0,
            min (max it.qty 1) 1000,
            min (max it.qty 1) 1000 * max it.unit_price_cents 0⟩ : LineItem)) ∧
    (∀ (db : Db) (raw : List RawItem) (dr : ℤ), raw ≠ [] → validItems raw = [] →
      billsCall db raw dr = Except.error errNoValidItems) ∧
    (∀ (db : Db) (dr : ℤ), billsCall db [] dr = Except.error errNoItems) ∧
    (∀ (db : Db) (raw : List RawItem) (dr : ℤ) (e : Str) (rs : List (List RawItem × ℤ)),
      billsCall db raw dr = Except.error e → runBills db ((raw, dr) :: rs) = runBills db rs) := by
  refine ⟨fun raw v hv => validItems_mem_bounds raw v hv, validItems_eq_filter_map, ?_, ?_, ?_⟩
  · intro db raw dr hraw hval
    simp only [billsCall, if_neg hraw, if_pos hval]
  · intro db dr
    rfl
  · intro db raw dr e rs hcall
    rw [runBills, hcall]

theorem claim_C4_witness :
    ((⟨2, ['a'], 0, 1000, 0⟩ : LineItem) ∈ validItems [⟨2, ['a'], -5, 2000⟩]) ∧
      1 ≤ (⟨2, ['a'], 0, 1000, 0⟩ : LineItem).qty ∧
      billsCall (initDb []) [⟨0, ['a'], 1, 1⟩] 0 = Except.error errNoValidItems := by
  refine ⟨by decide, ?_, ?_⟩
  · exact (claim_C4_validation.1 [⟨2, ['a'], -5, 2000⟩] ⟨2, ['a'], 0, 1000, 0⟩ (by decide)).1
  · exact claim_C4_validation.2.2.1 (initDb []) [⟨0, ['a'], 1, 1⟩] 0 (by decide) (by decide)

/-- C4 counterexample: the claim as stated assigns the `NoValidItems` error
to *every* request whose filtered list is empty, but an empty candidate list
is rejected with the distinct error string `No items` before filtering. -/
theorem claim_C4_counterexample :
    validItems ([] : List RawItem) = [] ∧
    billsCall (initDb []) [] 0 = Except.error errNoItems ∧
    errNoItems ≠ errNoValidItems :=
  ⟨rfl, rfl, by decide⟩

/-- C5: auto-allocation reads the current maximum `item_no` and attempts
`max+1`; it makes at most 3 attempts, failing with `AllocationExhausted`
when all 3 hit a uniqueness collision, and fails immediately with
`ItemNumberRangeExceeded` when `max+1` would exceed 9999; from an empty
store, three auto-allocations yield 1, 2, 3, an explicit `item_no = 2` then
fails with `ItemNumberInUse`, and a further auto-allocation yields 4. -/
theorem claim_C5_allocation :
    (c5db3.products.map Product.item_no = [some 1, some 2, some 3] ∧
      createProduct c5db3 ['d'] none 100 (some 2) = Except.error errItemNoInUse ∧
      (createProduct c5db3 ['d'] none 100 none).toOption.map
          (fun d => d.products.map Product.item_no) =
        some [some 1, some 2, some 3, some 4]) ∧
    (∀ (db : Db) (name : Str) (cat : Option Str) (price : ℤ), 9999 ≤ maxNo db →
      createProduct db name cat price none = Except.error errItemNoOverflow) ∧
    (∀ collide : ℕ → Bool, collide 0 = true → collide 1 = true → collide 2 = true →
      retryAlloc collide 3 0 = Except.error errAllocExhausted) := by
  refine ⟨⟨by decide, by rfl, by decide⟩, ?_, ?_⟩
  · exact fun db name cat price h => createProduct_overflow db name cat price h
  · exact fun collide h0 h1 h2 => retryAlloc_exhausted collide h0 h1 h2

theorem claim_C5_witness :
    (9999 ≤ maxNo c5dbMax ∧
      createProduct c5dbMax ['n'] none 50 none = Except.error errItemNoOverflow) ∧
      retryAlloc (fun _ => true) 3 0 = Except.error errAllocExhausted :=
  ⟨⟨by decide, claim_C5_allocation.2.1 c5dbMax ['n'] none 50 (by decide)⟩,
    claim_C5_allocation.2.2 (fun _ => true) rfl rfl rfl⟩

/-- C9: an explicit `item_no` outside `[1,9999]` is not rejected — the
request behaves exactly as if no `item_no` had been supplied and falls
through to the auto-allocation path (lines 460–468). -/
theorem claim_C9_out_of_range (db : Db) (name : Str) (cat : Option Str) (price : ℤ)
    (n : ℤ) (h : n < 1 ∨ 9999 < n) :
    createProduct db name cat price (some n) = createProduct db name cat price none :=
  createProduct_outOfRange db name cat price n h

theorem claim_C9_witness :
    ((10000 : ℤ) < 1 ∨ (9999 : ℤ) < 10000) ∧
      createProduct (initDb []) ['x'] none 0 (some 10000) =
        createProduct (initDb []) ['x'] none 0 none :=
  ⟨Or.inr (by norm_num),
    claim_C9_out_of_range (initDb []) ['x'] none 0 10000 (Or.inr (by norm_num))⟩

/-- C10: search (line 438, `WHERE p.is_available = 1 …`) returns only rows
whose availability flag is 1, while `GET /products` (line 446) has no such
filter and returns every product row. -/
theorem claim_C10_availability :
    (∀ (db : Db) (q : Str) (p : Product), p ∈ searchProducts db q → p.is_available = 1) ∧
    (∀ (db : Db) (p : Product), p ∈ listProducts db ↔ p ∈ db.products) := by
  constructor
  · intro db q p hp
    have h := (searchProducts_only db q p hp).2
    simp only [searchPred, Bool.and_eq_true, beq_iff_eq] at h
    exact h.1
  · intro db p
    exact (List.perm_insertionSort _ _).mem_iff

theorem claim_C10_witness :
    c10prodA ∈ searchProducts c10db "Tea".data ∧ c10prodA.is_available = 1 ∧
      c10prodB ∈ listProducts c10db ∧ c10prodB.is_available = 0 :=
  ⟨by decide, claim_C10_availability.1 c10db "Tea".data c10prodA (by decide),
    (claim_C10_availability.2 c10db c10prodB).mpr (by decide), by decide⟩

/-- C6 (amended): a product appears in a search result only if it is
available and `'%q%'` LIKE-matches (SQLite semantics: ASCII-case-insensitive,
with `%`/`_` in `q` acting as wildcards) its name or its `item_no` rendered
as text; when at most 20 products pass that predicate the result is exactly
those products; and the result never exceeds 20 rows.  (The claim's
*case-sensitive* substring match is refuted by the counterexample.) -/
theorem claim_C6_search (db : Db) (q : Str) (p : Product) :
    (searchProducts db q).length ≤ 20 ∧
    (p ∈ searchProducts db q → p ∈ db.products ∧ searchPred q p = true) ∧
    ((db.products.filter (searchPred q)).length ≤ 20 →
      (p ∈ searchProducts db q ↔ p ∈ db.products ∧ searchPred q p = true)) :=
  ⟨List.length_take_le _ _, searchProducts_only db q p,
    fun hlen => searchProducts_mem_iff db q p hlen⟩

theorem claim_C6_witness :
    (c6db.products.filter (searchPred "Pizza".data)).length ≤ 20 ∧
      (c6prod ∈ searchProducts c6db "Pizza".data ↔
        c6prod ∈ c6db.products ∧ searchPred "Pizza".data c6prod = true) :=
  ⟨by decide, (claim_C6_search c6db "Pizza".data c6prod).2.2 (by decide)⟩

/-- C6 counterexample: the query `pizza` is not a case-sensitive substring of
the name `Pizza` (and the product has no `item_no`), yet the search returns
the product — SQLite `LIKE` is ASCII-case-insensitive, so the claim's
"case-sensitive substring" characterisation is false. -/
theorem claim_C6_counterexample :
    (searchProducts c6db "pizza".data).map Product.name = ["Pizza".data] ∧
    c6prod.item_no = none ∧
    ¬ ("pizza".data <:+: "Pizza".data) := by
  refine ⟨by decide, rfl, by decide⟩

/-- C7 (amended): an unreadable directory yields `[]`; the result holds
exactly the regular `.db` files with readable metadata; it is sorted
descending by the *decimal string rendering* of the modified time (the code
compares the rendered strings), which coincides with numeric
modified-time-descending whenever all rendered timestamps have the same
length — e.g. all times between 2001-09-09 and 2286-11-20 (10 digits) — but
not across different digit counts (see the counterexample). -/
theorem claim_C7_list_backups (entries : List DirEntry) (row : BackupRow) (s : ℕ) :
    listBackups none = [] ∧
    (listBackups (some entries)).Sorted (fun a b => strLeB b.modified a.modified = true) ∧
    (row ∈ listBackups (some entries) ↔
      ∃ e ∈ entries, (e.isFile && (e.ext == some ('d' :: ['b'])) && e.metaOk) = true ∧
        row = ⟨e.name, e.path, e.size, mtimeStr e.mtime⟩) ∧
    ((∀ a ∈ entries, ∀ b ∈ entries,
        (mtimeStr a.mtime).length = (mtimeStr b.mtime).length) →
      (listBackups (some entries)).Sorted fun a b => decVal b.modified ≤ decVal a.modified) ∧
    decVal (mtimeStr (some s)) = s :=
  ⟨rfl, listBackups_sorted entries, listBackups_mem_iff entries row,
    fun hlen => listBackups_sorted_numeric entries hlen, decVal_mtimeStr s⟩

theorem claim_C7_witness :
    (∀ a ∈ [c7f1, c7f2], ∀ b ∈ [c7f1, c7f2],
      (mtimeStr a.mtime).length = (mtimeStr b.mtime).length) ∧
    (listBackups (some [c7f1, c7f2])).Sorted
      (fun a b => decVal b.modified ≤ decVal a.modified) :=
  ⟨by decide,
    (claim_C7_list_backups [c7f1, c7f2] ⟨[], [], 0, []⟩ 0).2.2.2.1 (by decide)⟩

/-- C7 counterexample: with one file modified at epoch second 999999999 and
another at 1000000000, the code's string comparison puts the *earlier* file
first (`"9…" > "1…"` lexicographically), so the list is not sorted by
modified time descending as the claim states. -/
theorem claim_C7_counterexample :
    (listBackups (some [c7e1, c7e2])).map BackupRow.modified =
      [decChars 999999999, decChars 1000000000] ∧
    decVal (decChars 999999999) < decVal (decChars 1000000000) := by
  refine ⟨by decide, by decide⟩

/-- C8 (amended): the receipt formatter first *trims* the item name, then
clips it to 20 characters with no ellipsis: a name whose trimmed form has
≥ 20 characters occupies exactly the first 20 characters of its line as the
first 20 characters of the trimmed name, and a trimmed name of ≤ 20
(single-byte) characters appears trimmed and space-padded to the 20-column
width.  For names without surrounding whitespace this is the claim as
stated; with surrounding whitespace the rendered name is the trimmed one
(see the counterexample). -/
theorem claim_C8_truncation (it : ReceiptItem) :
    (20 ≤ (rustTrim it.name).length →
      (itemLine it).take 20 = (rustTrim it.name).take 20 ∧
        ((itemLine it).take 20).length = 20) ∧
    ((rustTrim it.name).length ≤ 20 → utf8Len (rustTrim it.name) = (rustTrim it.name).length →
      (itemLine it).take 20 =
        rustTrim it.name ++ List.replicate (20 - (rustTrim it.name).length) ' ') := by
  constructor
  · intro h
    refine ⟨itemLine_name_col_long it h, ?_⟩
    rw [itemLine_name_col_long it h]
    simp [List.length_take]
    omega
  · intro hle hascii
    have htrim : fitText it.name 20 = rustTrim it.name := by
      unfold fitText
      exact List.take_of_length_le hle
    have hpadval : padRightR (rustTrim it.name) 20 =
        rustTrim it.name ++ List.replicate (20 - (rustTrim it.name).length) ' ' := by
      unfold padRightR
      rw [hascii]
      split_ifs with hif
      · have hz : 20 - (rustTrim it.name).length = 0 := by omega
        rw [hz]
        simp
      · rfl
    have hlen : (rustTrim it.name ++
        List.replicate (20 - (rustTrim it.name).length) ' ').length = 20 := by
      simp [List.length_append, List.length_replicate]
      omega
    unfold itemLine
    rw [htrim, hpadval, List.take_left' hlen]

theorem claim_C8_witness :
    (20 ≤ (rustTrim c8long.name).length ∧
      (itemLine c8long).take 20 = (rustTrim c8long.name).take 20) ∧
    ((rustTrim c8item.name).length ≤ 20 ∧
      (itemLine c8item).take 20 =
        rustTrim c8item.name ++ List.replicate (20 - (rustTrim c8item.name).length) ' ') :=
  ⟨⟨by decide, ((claim_C8_truncation c8long).1 (by decide)).1⟩,
    ⟨by decide, (claim_C8_truncation c8item).2 (by decide) (by decide)⟩⟩

/-- C8 counterexample: the name `" a"` has 2 ≤ 20 characters, so by the
claim it should appear *unchanged* padded to the 20-character column
(`" a" ++ 18 spaces`); the code trims it first and renders
`"a" ++ 19 spaces`. -/
theorem claim_C8_counterexample :
    (itemLine c8item).take 20 = 'a' :: List.replicate 19 ' ' ∧
    'a' :: List.replicate 19 ' ' ≠ ' ' :: 'a' :: List.replicate 18 ' ' := by
  refine ⟨by decide, by decide⟩

/-! ### Evaluation lemmas for the two concrete discount computations -/

theorem f64Discount_small : f64Discount 1000 250 = 25 := by
  rw [f64Discount_exact 1000 250 (by norm_num)]
  rw [show ((1000 * 250 : ℤ) : ℚ) / 10000 = ((25 : ℤ) : ℚ) by norm_num]
  exact roundHalfAway_intCast 25

theorem ratExp2_big : ratExp2 (9007199254740993 : ℚ) = 53 := by
  have hl1 : natLog2 9007199254740993 = 53 := by decide
  have hnum : (9007199254740993 : ℚ).num = 9007199254740993 := rfl
  have hden : (9007199254740993 : ℚ).den = 1 := rfl
  have hcond : pow2 ((natLog2 (9007199254740993 : ℚ).num.natAbs : ℤ) -
      (natLog2 (9007199254740993 : ℚ).den : ℤ)) ≤ |(9007199254740993 : ℚ)| := by
    rw [hnum, hden, show (9007199254740993 : ℤ).natAbs = 9007199254740993 from rfl,
      hl1, show natLog2 1 = 0 from rfl, pow2_eq_zpow]
    rw [show ((53 : ℕ) : ℤ) - ((0 : ℕ) : ℤ) = ((53 : ℕ) : ℤ) by norm_num, zpow_natCast]
    rw [abs_of_pos (by norm_num : (0:ℚ) < 9007199254740993)]
    norm_num
  simp only [ratExp2, if_pos hcond]
  rw [hnum, hden, show (9007199254740993 : ℤ).natAbs = 9007199254740993 from rfl,
    hl1, show natLog2 1 = 0 from rfl]
  norm_num

theorem rne_big : rne ((9007199254740993 : ℚ) / 2) = 4503599627370496 := by
  have hfl : ⌊(9007199254740993 : ℚ) / 2⌋ = 4503599627370496 := by norm_num
  simp only [rne, hfl]
  norm_num

theorem toF64_big : toF64 (9007199254740993 : ℚ) = 9007199254740992 := by
  have hne : (9007199254740993 : ℚ) ≠ 0 := by norm_num
  simp only [toF64, if_neg hne, ratExp2_big]
  rw [if_neg (by norm_num : ¬ (9007199254740993 : ℚ) < 0)]
  rw [show (53 : ℤ) - 52 = ((1 : ℕ) : ℤ) by norm_num, pow2_eq_zpow, zpow_natCast]
  rw [abs_of_pos (by norm_num : (0:ℚ) < 9007199254740993)]
  rw [show ((2 : ℚ) ^ (1 : ℕ)) = 2 by norm_num]
  rw [rne_big]
  norm_num

theorem toF64_bigProd :
    toF64 ((9007199254740992 : ℚ) * 10000) = (9007199254740992 : ℚ) * 10000 := by
  have h := toF64_dyadic 625 57 (by norm_num) (by norm_num)
  have heq : ((625 : ℤ) : ℚ) * 2 ^ (57 : ℤ) = (9007199254740992 : ℚ) * 10000 := by
    rw [show (57 : ℤ) = ((57 : ℕ) : ℤ) from rfl, zpow_natCast]
    norm_num
  rw [heq] at h
  exact h

theorem toF64_bigQuot : toF64 ((9007199254740992 : ℚ)) = (9007199254740992 : ℚ) := by
  have h := toF64_dyadic 1 53 (by norm_num) (by norm_num)
  have heq : ((1 : ℤ) : ℚ) * 2 ^ (53 : ℤ) = (9007199254740992 : ℚ) := by
    rw [show (53 : ℤ) = ((53 : ℕ) : ℤ) from rfl, zpow_natCast]
    norm_num
  rw [heq] at h
  exact h

theorem f64Discount_big :
    f64Discount 9007199254740993 10000 = 9007199254740992 := by
  unfold f64Discount
  rw [show ((9007199254740993 : ℤ) : ℚ) = (9007199254740993 : ℚ) by norm_num]
  rw [show ((10000 : ℤ) : ℚ) = (10000 : ℚ) by norm_num]
  rw [toF64_big]
  rw [show toF64 (10000 : ℚ) = (10000 : ℚ) from by
    have h := toF64_intCast 10000 (by norm_num)
    rwa [show ((10000 : ℤ) : ℚ) = (10000 : ℚ) by norm_num] at h]
  rw [toF64_bigProd]
  rw [show ((9007199254740992 : ℚ) * 10000) / 10000 = (9007199254740992 : ℚ) by norm_num]
  rw [toF64_bigQuot]
  have h := roundHalfAway_intCast 9007199254740992
  rwa [show ((9007199254740992 : ℤ) : ℚ) = (9007199254740992 : ℚ) by norm_num] at h

/-- C3 (amended): every bill created by `POST /bills` has
`subtotal_cents = Σ qty·unit_price_cents` over the validated items and
`total_cents = subtotal_cents − discount_cents`, with `discount_cents`
produced by the `f64` computation of line 548; that computation agrees with
exact round-half-away-from-zero of `subtotal·bps/10000` whenever
`|subtotal_cents · discount_rate_bps| < 2³⁹·10⁴` (≈ 5.5·10¹⁵, covering all
realistic bills; the claim's unconditional form is refuted by the
counterexample at subtotal `2^53 + 1`).  The witness instantiates the
claim's example: subtotal 1000, 250 bps → discount 25, total 975. -/
theorem claim_C3_totals (db : Db) (raw : List RawItem) (dr : ℤ) (db' : Db) (no : Str)
    (hok : billsCall db raw dr = Except.ok (db', no)) :
    ∃ b : Bill, db'.bills = db.bills ++ [b] ∧
      b.subtotal_cents = ((validItems raw).map LineItem.line_total_cents).sum ∧
      b.discount_rate_bps = dr ∧
      b.discount_cents = f64Discount b.subtotal_cents dr ∧
      b.total_cents = b.subtotal_cents - b.discount_cents ∧
      (|b.subtotal_cents * dr| < 2 ^ 39 * 10 ^ 4 →
        b.discount_cents = roundHalfAway (((b.subtotal_cents * dr : ℤ) : ℚ) / 10000)) := by
  simp only [billsCall] at hok
  split_ifs at hok with h1 h2 h3 h4
  cases hok
  refine ⟨_, rfl, rfl, rfl, rfl, rfl, ?_⟩
  intro hb
  exact f64Discount_exact _ dr hb

theorem claim_C3_witness :
    billsCall c3db c3raw 250 = Except.ok (c3after, billNoStr 1) ∧
    c3after.bills.map (fun b => (b.subtotal_cents, b.discount_cents, b.total_cents)) =
      [(1000, 25, 975)] := by
  have hsum : ((validItems c3raw).map LineItem.line_total_cents).sum = 1000 := by decide
  have hok : billsCall c3db c3raw 250 = Except.ok (c3after, billNoStr 1) := by
    simp only [billsCall, if_neg (by decide : ¬ c3raw = []),
      if_neg (by decide : ¬ validItems c3raw = []),
      if_neg (by decide :
        ¬ billNoStr (c3db.bill_seq + 1) ∈ c3db.bills.map Bill.bill_no),
      if_neg (not_not.mpr (by decide :
        ∀ it ∈ validItems c3raw, it.product_id ∈ c3db.products.map fun p => (p.id : ℤ)))]
    rw [hsum, f64Discount_small]
    rfl
  obtain ⟨b, hb, hsub, hdr, hdc, htot, _⟩ :=
    claim_C3_totals c3db c3raw 250 c3after (billNoStr 1) hok
  rw [hsum] at hsub
  rw [hsub] at hdc htot
  rw [f64Discount_small] at hdc
  rw [hdc] at htot
  have hbills : c3after.bills = [b] := by
    rw [hb]
    rfl
  refine ⟨hok, ?_⟩
  rw [hbills, List.map_cons, List.map_nil, hsub, hdc, htot]
  norm_num

/-- C3 counterexample: with one validated item of unit price `2^53 + 1`
cents (quantity 1) and a 100% discount rate (10000 bps), the bill is created
with `discount_cents = 2^53` — the `f64` conversion of the subtotal already
rounded to `2^53` — while the claim's exact round-half-away-from-zero
formula gives `2^53 + 1`; so `discount_cents` differs from the claimed
rounding and `total_cents` is 1 rather than 0. -/
theorem claim_C3_counterexample :
    billsCall c3db ce3raw 10000 = Except.ok (ce3after, billNoStr 1) ∧
    ce3after.bills.map Bill.discount_cents = [9007199254740992] ∧
    roundHalfAway (((9007199254740993 * 10000 : ℤ) : ℚ) / 10000) = 9007199254740993 ∧
    (9007199254740992 : ℤ) ≠ 9007199254740993 := by
  have hsum : ((validItems ce3raw).map LineItem.line_total_cents).sum = 9007199254740993 := by
    decide
  refine ⟨?_, by decide, ?_, by decide⟩
  · simp only [billsCall, if_neg (by decide : ¬ ce3raw = []),
      if_neg (by decide : ¬ validItems ce3raw = []),
      if_neg (by decide :
        ¬ billNoStr (c3db.bill_seq + 1) ∈ c3db.bills.map Bill.bill_no),
      if_neg (not_not.mpr (by decide :
        ∀ it ∈ validItems ce3raw, it.product_id ∈ c3db.products.map fun p => (p.id : ℤ)))]
    rw [hsum, f64Discount_big]
    rfl
  · rw [show ((9007199254740993 * 10000 : ℤ) : ℚ) / 10000 = ((9007199254740993 : ℤ) : ℚ) by
      norm_num]
    exact roundHalfAway_intCast 9007199254740993

end MeetEat
